import Mathlib

/-! Rollerball chess engine (`src/App.js`): a shallow embedding and its properties.

The engine is a set of pure JavaScript functions over a 6x5 grid of one-character
strings.  The embedding keeps the shape of the source:

* a cell is one of the nine symbols `K N R P k n r p .` used by the source;
* a board is a list of rows, a row a list of cells (the JavaScript arrays);
* coordinates are integers, because the generator computes `r + dr` before it tests
  the bounds;
* scores are integers extended with the two infinities the search starts from.
-/

namespace Rollerball

/-! ## Board model -/

/-- The nine cell symbols of the source: upper case is white, lower case is black and
`dot` is the empty marker `'.'`. -/
inductive Cell
  | K | N | R | P | k | n | r | p | dot
  deriving DecidableEq, Repr

/-- JavaScript `toUpperCase` restricted to the nine cell symbols. -/
def toUpperCase : Cell → Cell
  | Cell.K => Cell.K
  | Cell.N => Cell.N
  | Cell.R => Cell.R
  | Cell.P => Cell.P
  | Cell.k => Cell.K
  | Cell.n => Cell.N
  | Cell.r => Cell.R
  | Cell.p => Cell.P
  | Cell.dot => Cell.dot

/-- JavaScript `toLowerCase` restricted to the nine cell symbols. -/
def toLowerCase : Cell → Cell
  | Cell.K => Cell.k
  | Cell.N => Cell.n
  | Cell.R => Cell.r
  | Cell.P => Cell.p
  | Cell.k => Cell.k
  | Cell.n => Cell.n
  | Cell.r => Cell.r
  | Cell.p => Cell.p
  | Cell.dot => Cell.dot

/-- A board is an array of rows. -/
abbrev Board := List (List Cell)

/-- A square is a (row, column) pair. -/
abbrev Square := Int × Int

/-- A move is the pair `[[fromR, fromC], [toR, toC]]`. -/
abbrev Move := Square × Square

/-- The board has six rows of five cells each. -/
def WellFormed (board : Board) : Prop :=
  board.length = 6 ∧ ∀ row ∈ board, row.length = 5

instance (board : Board) : Decidable (WellFormed board) :=
  inferInstanceAs (Decidable (board.length = 6 ∧ ∀ row ∈ board, row.length = 5))

/-- Square `(r, c)` lies on the 6x5 grid. -/
def InRange (sq : Square) : Prop :=
  0 ≤ sq.1 ∧ sq.1 < 6 ∧ 0 ≤ sq.2 ∧ sq.2 < 5

instance (sq : Square) : Decidable (InRange sq) :=
  inferInstanceAs (Decidable (0 ≤ sq.1 ∧ sq.1 < 6 ∧ 0 ≤ sq.2 ∧ sq.2 < 5))

/-- The read `board[r][c]`.  The lookup is total: a read outside the stored rows and
columns falls into the last branches and yields the empty marker. -/
def cellAt (board : Board) (r c : Int) : Cell :=
  match r, c with
  | Int.ofNat i, Int.ofNat j =>
    match board[i]? with
    | some row =>
      match row[j]? with
      | some cell => cell
      | none => Cell.dot
    | none => Cell.dot
  | _, _ => Cell.dot

/-- The write `board[r][c] = v` on a board whose rows were copied.  A write that
does not hit a stored cell leaves the board as it is. -/
def setCell (board : Board) (r c : Int) (v : Cell) : Board :=
  match r, c with
  | Int.ofNat i, Int.ofNat j =>
    match board[i]? with
    | some row => board.set i (row.set j v)
    | none => board
  | _, _ => board

/-- The constant `initialBoard`. -/
def initialBoard : Board :=
  [ [Cell.r, Cell.n, Cell.k, Cell.n, Cell.r],
    [Cell.p, Cell.p, Cell.p, Cell.p, Cell.p],
    [Cell.dot, Cell.dot, Cell.dot, Cell.dot, Cell.dot],
    [Cell.dot, Cell.dot, Cell.dot, Cell.dot, Cell.dot],
    [Cell.P, Cell.P, Cell.P, Cell.P, Cell.P],
    [Cell.R, Cell.N, Cell.K, Cell.N, Cell.R] ]

/-- The table `PIECE_VALUES`; the empty marker is not a key of the table. -/
def PIECE_VALUES : Cell → Option Int
  | Cell.P => some 1
  | Cell.N => some 3
  | Cell.R => some 5
  | Cell.K => some 1000
  | Cell.p => some (-1)
  | Cell.n => some (-3)
  | Cell.r => some (-5)
  | Cell.k => some (-1000)
  | Cell.dot => none

/-! ## Move generation -/

/-- The test `nr >= 0 && nr < 6 && nc >= 0 && nc < 5`. -/
def inBounds (nr nc : Int) : Bool :=
  decide (0 ≤ nr) && decide (nr < 6) && decide (0 ≤ nc) && decide (nc < 5)

/-- The test `(target === target.toUpperCase()) !== isWhite`. -/
def caseDiffers (target : Cell) (isWhite : Bool) : Bool :=
  decide (target = toUpperCase target) != isWhite

/-- The inner loop of the rook branch, `for (let i = ...; i < 6; i++)`, from the
current value of `i`; `steps` counts the iterations that remain. -/
def rookRay (board : Board) (r c : Int) (isWhite : Bool) (dr dc : Int) :
    Nat → Int → List Move
  | 0, _ => []
  | steps + 1, i =>
    let nr := r + dr * i
    let nc := c + dc * i
    if !(inBounds nr nc) then []
    else
      let target := cellAt board nr nc
      if target = Cell.dot then
        ((r, c), (nr, nc)) :: rookRay board r c isWhite dr dc steps (i + 1)
      else if caseDiffers target isWhite then
        [((r, c), (nr, nc))]
      else []

/-- The function `pieceMoves`. -/
def pieceMoves (board : Board) (r c : Int) (piece : Cell) (isWhite : Bool) : List Move :=
  if toUpperCase piece = Cell.P then
    let dr : Int := if isWhite then -1 else 1
    let nr := r + dr
    (if decide (0 ≤ nr) && decide (nr < 6) && decide (cellAt board nr c = Cell.dot) then
        [((r, c), (nr, c))]
      else []) ++
    ([-1, 1] : List Int).flatMap (fun dc =>
      let nc := c + dc
      if inBounds nr nc then
        let target := cellAt board nr nc
        if decide (target ≠ Cell.dot) && caseDiffers target isWhite then
          [((r, c), (nr, nc))]
        else []
      else [])
  else if toUpperCase piece = Cell.R then
    ([(-1, 0), (1, 0), (0, -1), (0, 1)] : List (Int × Int)).flatMap (fun d =>
      rookRay board r c isWhite d.1 d.2 5 1)
  else if toUpperCase piece = Cell.N then
    ([(-2, -1), (-2, 1), (-1, -2), (-1, 2), (1, -2), (1, 2), (2, -1), (2, 1)] :
        List (Int × Int)).flatMap (fun d =>
      let nr := r + d.1
      let nc := c + d.2
      if inBounds nr nc then
        let target := cellAt board nr nc
        if decide (target = Cell.dot) || caseDiffers target isWhite then
          [((r, c), (nr, nc))]
        else []
      else [])
  else if toUpperCase piece = Cell.K then
    ([-1, 0, 1] : List Int).flatMap (fun dr =>
      ([-1, 0, 1] : List Int).flatMap (fun dc =>
        if decide (dr = 0) && decide (dc = 0) then []
        else
          let nr := r + dr
          let nc := c + dc
          if inBounds nr nc then
            let target := cellAt board nr nc
            if decide (target = Cell.dot) || caseDiffers target isWhite then
              [((r, c), (nr, nc))]
            else []
          else []))
  else []

/-- The function `generateMoves`: the squares are visited row by row and the moves of
each piece of the side to move are appended. -/
def generateMoves (board : Board) (whiteToMove : Bool) : List Move :=
  ([0, 1, 2, 3, 4, 5] : List Int).flatMap (fun r =>
    ([0, 1, 2, 3, 4] : List Int).flatMap (fun c =>
      let piece := cellAt board r c
      if piece = Cell.dot then []
      else
        (if whiteToMove && decide (piece = toUpperCase piece) then
            pieceMoves board r c piece true
          else []) ++
        (if !whiteToMove && decide (piece = toLowerCase piece) then
            pieceMoves board r c piece false
          else [])))

/-! ## Move application and evaluation -/

/-- The function `applyMove`. -/
def applyMove (board : Board) (move : Move) : Board :=
  let fromR := move.1.1
  let fromC := move.1.2
  let toR := move.2.1
  let toC := move.2.2
  let piece := cellAt board fromR fromC
  let newBoard := board.map (fun row => row)
  let newBoard := setCell newBoard toR toC piece
  let newBoard := setCell newBoard fromR fromC Cell.dot
  let newBoard := if piece = Cell.P ∧ toR = 0 then setCell newBoard toR toC Cell.N else newBoard
  let newBoard := if piece = Cell.p ∧ toR = 5 then setCell newBoard toR toC Cell.n else newBoard
  newBoard

/-- The function `evaluate`: `PIECE_VALUES[cell] || 0` is added for each cell of each
row. -/
def evaluate (board : Board) : Int :=
  board.foldl (fun score row =>
    row.foldl (fun score cell => score + (PIECE_VALUES cell).getD 0) score) 0

/-! ## Search -/

/-- Scores: the integers together with `-Infinity` (`⊥`) and `Infinity` (`⊤`). -/
abbrev Score := WithBot (WithTop Int)

/-- A finite score. -/
def fin (n : Int) : Score := WithBot.some (WithTop.some n)

/-- The pair `[score, move]` returned by `minimax`; `none` is `null`. -/
abbrev Result := Score × Option Move

/-- The loop of the maximizing branch over the moves that remain, with the current
values of `alpha`, `maxEval` and `bestMove`; `search` is the recursive call
`minimax(newBoard, depth-1, alpha, beta, false)`. -/
def maxLoop (search : Board → Score → Score → Result) (board : Board) (beta : Score) :
    List Move → Score → Score → Option Move → Result
  | [], _, maxEval, bestMove => (maxEval, bestMove)
  | move :: rest, alpha, maxEval, bestMove =>
    let newBoard := applyMove board move
    let evalScore := (search newBoard alpha beta).1
    let maxEval1 := if evalScore > maxEval then evalScore else maxEval
    let bestMove1 := if evalScore > maxEval then some move else bestMove
    let alpha1 := max alpha evalScore
    if beta ≤ alpha1 then (maxEval1, bestMove1)
    else maxLoop search board beta rest alpha1 maxEval1 bestMove1

/-- The loop of the minimizing branch over the moves that remain, with the current
values of `beta`, `minEval` and `bestMove`. -/
def minLoop (search : Board → Score → Score → Result) (board : Board) (alpha : Score) :
    List Move → Score → Score → Option Move → Result
  | [], _, minEval, bestMove => (minEval, bestMove)
  | move :: rest, beta, minEval, bestMove =>
    let newBoard := applyMove board move
    let evalScore := (search newBoard alpha beta).1
    let minEval1 := if evalScore < minEval then evalScore else minEval
    let bestMove1 := if evalScore < minEval then some move else bestMove
    let beta1 := min beta evalScore
    if beta1 ≤ alpha then (minEval1, bestMove1)
    else minLoop search board alpha rest beta1 minEval1 bestMove1

/-- The function `minimax`. -/
def minimax (depth : Nat) (board : Board) (alpha beta : Score) (maximizing : Bool) : Result :=
  let flat := board.flatten
  if !(flat.contains Cell.K) then (fin (-9999), none)
  else if !(flat.contains Cell.k) then (fin 9999, none)
  else
    match depth with
    | 0 => (fin (evaluate board), none)
    | d + 1 =>
      let moves := generateMoves board maximizing
      if moves.length = 0 then (fin (evaluate board), none)
      else if maximizing then
        maxLoop (fun b a be => minimax d b a be false) board beta moves alpha ⊥ none
      else
        minLoop (fun b a be => minimax d b a be true) board alpha moves beta ⊤ none

/-! ## Move application on shared row arrays

A JavaScript board is an array of references to row arrays, and a write
`newBoard[r][c] = v` changes the row array that `newBoard[r]` refers to.  The definitions
below keep the row arrays in a store, so that the copy made by
`board.map(row => [...row])` and the writes that follow it are explicit. -/

/-- The store of row arrays; a reference to a row is its position in the store. -/
abbrev Store := List (List Cell)

/-- A board object: the references to its rows. -/
abbrev BoardRef := List Nat

/-- The board value that a board object stands for in a store. -/
def boardOf (store : Store) (ref : BoardRef) : Board :=
  ref.map (fun a => (store[a]?).getD [])

/-- The write `newBoard[r][c] = v` through the row reference `newBoard[r]`. -/
def writeCell (store : Store) (ref : BoardRef) (r c : Int) (v : Cell) : Store :=
  match r, c with
  | Int.ofNat i, Int.ofNat j =>
    match ref[i]? with
    | some a =>
      match store[a]? with
      | some row => store.set a (row.set j v)
      | none => store
    | none => store
  | _, _ => store

/-- The function `applyMove` on a store: the rows of `board` are copied to fresh rows at
the end of the store, the writes go through the references to the fresh rows, and the
new store is returned with the new board object. -/
def applyMoveInStore (store : Store) (board : BoardRef) (move : Move) : Store × BoardRef :=
  let fromR := move.1.1
  let fromC := move.1.2
  let toR := move.2.1
  let toC := move.2.2
  let piece := cellAt (boardOf store board) fromR fromC
  let newBoard : BoardRef := (List.range board.length).map (fun i => store.length + i)
  let store1 := store ++ boardOf store board
  let store2 := writeCell store1 newBoard toR toC piece
  let store3 := writeCell store2 newBoard fromR fromC Cell.dot
  let store4 := if piece = Cell.P ∧ toR = 0 then writeCell store3 newBoard toR toC Cell.N else store3
  let store5 := if piece = Cell.p ∧ toR = 5 then writeCell store4 newBoard toR toC Cell.n else store4
  (store5, newBoard)

/-! ## The generator with reads that can fail

In the source a read `board[r][c]` outside the stored rows and cells yields `undefined`.
The definitions below repeat the generator with such a read as a failure (`none`) that
ends the computation, so that a result `some moves` tells that every read hit a stored
cell. -/

/-- The read `board[r][c]`, `none` when the row or the cell is not stored. -/
def readCell (board : Board) (r c : Int) : Option Cell :=
  match r, c with
  | Int.ofNat i, Int.ofNat j =>
    match board[i]? with
    | some row => row[j]?
    | none => none
  | _, _ => none

/-- A loop over `l` that appends the moves of each iteration and fails when an iteration
fails. -/
def collect {α : Type} (f : α → Option (List Move)) : List α → Option (List Move)
  | [] => some []
  | a :: rest =>
    (f a).bind (fun xs => (collect f rest).bind (fun ys => some (xs ++ ys)))

/-- The inner loop of the rook branch with reads that can fail. -/
def rookRayChecked (board : Board) (r c : Int) (isWhite : Bool) (dr dc : Int) :
    Nat → Int → Option (List Move)
  | 0, _ => some []
  | steps + 1, i =>
    let nr := r + dr * i
    let nc := c + dc * i
    if !(inBounds nr nc) then some []
    else
      (readCell board nr nc).bind (fun target =>
        if target = Cell.dot then
          (rookRayChecked board r c isWhite dr dc steps (i + 1)).bind (fun rest =>
            some (((r, c), (nr, nc)) :: rest))
        else if caseDiffers target isWhite then
          some [((r, c), (nr, nc))]
        else some [])

/-- The landing test of the knight and king branches with a read that can fail. -/
def stepChecked (board : Board) (r c : Int) (isWhite : Bool) (nr nc : Int) :
    Option (List Move) :=
  if inBounds nr nc then
    (readCell board nr nc).bind (fun target =>
      some (if decide (target = Cell.dot) || caseDiffers target isWhite then
          [((r, c), (nr, nc))]
        else []))
  else some []

/-- The function `pieceMoves` with reads that can fail. -/
def pieceMovesChecked (board : Board) (r c : Int) (piece : Cell) (isWhite : Bool) :
    Option (List Move) :=
  if toUpperCase piece = Cell.P then
    let dr : Int := if isWhite then -1 else 1
    let nr := r + dr
    (if decide (0 ≤ nr) && decide (nr < 6) then
        (readCell board nr c).bind (fun ahead =>
          some (if ahead = Cell.dot then [((r, c), (nr, c))] else []))
      else some []).bind (fun forward =>
    (collect (fun dc : Int =>
      let nc := c + dc
      if inBounds nr nc then
        (readCell board nr nc).bind (fun target =>
          some (if decide (target ≠ Cell.dot) && caseDiffers target isWhite then
              [((r, c), (nr, nc))]
            else []))
      else some []) [-1, 1]).bind (fun captures => some (forward ++ captures)))
  else if toUpperCase piece = Cell.R then
    collect (fun d : Int × Int => rookRayChecked board r c isWhite d.1 d.2 5 1)
      [(-1, 0), (1, 0), (0, -1), (0, 1)]
  else if toUpperCase piece = Cell.N then
    collect (fun d : Int × Int => stepChecked board r c isWhite (r + d.1) (c + d.2))
      [(-2, -1), (-2, 1), (-1, -2), (-1, 2), (1, -2), (1, 2), (2, -1), (2, 1)]
  else if toUpperCase piece = Cell.K then
    collect (fun dr : Int =>
      collect (fun dc : Int =>
        if decide (dr = 0) && decide (dc = 0) then some []
        else stepChecked board r c isWhite (r + dr) (c + dc)) [-1, 0, 1]) [-1, 0, 1]
  else some []

/-- The function `generateMoves` with reads that can fail. -/
def generateMovesChecked (board : Board) (whiteToMove : Bool) : Option (List Move) :=
  collect (fun r : Int =>
    collect (fun c : Int =>
      (readCell board r c).bind (fun piece =>
        if piece = Cell.dot then some []
        else
          (if whiteToMove && decide (piece = toUpperCase piece) then
              pieceMovesChecked board r c piece true
            else some []).bind (fun white =>
          (if !whiteToMove && decide (piece = toLowerCase piece) then
              pieceMovesChecked board r c piece false
            else some []).bind (fun black => some (white ++ black)))))
      [0, 1, 2, 3, 4]) [0, 1, 2, 3, 4, 5]

/-! ## Notions used to state the properties -/

/-- The colour of the piece on a cell: `some true` for white, `some false` for black,
`none` for the empty marker. -/
def sideOf : Cell → Option Bool
  | Cell.K => some true
  | Cell.N => some true
  | Cell.R => some true
  | Cell.P => some true
  | Cell.k => some false
  | Cell.n => some false
  | Cell.r => some false
  | Cell.p => some false
  | Cell.dot => none

/-- The effect of a move on the board as a frame condition: the board `newBoard` that results
from `move` on `board` is a 6x5 board, its source square is empty, its destination square
holds the piece that stood on the source square or the knight that a pawn is promoted to,
and every other square holds what it held on `board`. -/
def MoveEffect (board : Board) (move : Move) (newBoard : Board) : Prop :=
  WellFormed newBoard ∧
    cellAt newBoard move.1.1 move.1.2 = Cell.dot ∧
    (cellAt newBoard move.2.1 move.2.2 = cellAt board move.1.1 move.1.2 ∨
      (cellAt board move.1.1 move.1.2 = Cell.P ∧ cellAt newBoard move.2.1 move.2.2 = Cell.N) ∨
      (cellAt board move.1.1 move.1.2 = Cell.p ∧ cellAt newBoard move.2.1 move.2.2 = Cell.n)) ∧
    ∀ r c : Int, ¬ (r = move.1.1 ∧ c = move.1.2) → ¬ (r = move.2.1 ∧ c = move.2.2) →
      cellAt newBoard r c = cellAt board r c

/-- Some square of the grid holds the cell value `v`. -/
def HasCell (board : Board) (v : Cell) : Prop :=
  ∃ r ∈ ([0, 1, 2, 3, 4, 5] : List Int), ∃ c ∈ ([0, 1, 2, 3, 4] : List Int), cellAt board r c = v

instance (board : Board) (v : Cell) : Decidable (HasCell board v) :=
  inferInstanceAs (Decidable (∃ r ∈ ([0, 1, 2, 3, 4, 5] : List Int),
    ∃ c ∈ ([0, 1, 2, 3, 4] : List Int), cellAt board r c = v))

/-- The value of a cell as the evaluation rule states it: pawn 1, knight 3, rook 5,
king 1000, negated for black, and 0 for the empty marker. -/
def materialValue : Cell → Int
  | Cell.P => 1
  | Cell.N => 3
  | Cell.R => 5
  | Cell.K => 1000
  | Cell.p => -1
  | Cell.n => -3
  | Cell.r => -5
  | Cell.k => -1000
  | Cell.dot => 0

/-- The initial position without the white king. -/
def boardWithoutWhiteKing : Board :=
  [ [Cell.r, Cell.n, Cell.k, Cell.n, Cell.r],
    [Cell.p, Cell.p, Cell.p, Cell.p, Cell.p],
    [Cell.dot, Cell.dot, Cell.dot, Cell.dot, Cell.dot],
    [Cell.dot, Cell.dot, Cell.dot, Cell.dot, Cell.dot],
    [Cell.P, Cell.P, Cell.P, Cell.P, Cell.P],
    [Cell.R, Cell.N, Cell.dot, Cell.N, Cell.R] ]

/-- The initial position without the black king. -/
def boardWithoutBlackKing : Board :=
  [ [Cell.r, Cell.n, Cell.dot, Cell.n, Cell.r],
    [Cell.p, Cell.p, Cell.p, Cell.p, Cell.p],
    [Cell.dot, Cell.dot, Cell.dot, Cell.dot, Cell.dot],
    [Cell.dot, Cell.dot, Cell.dot, Cell.dot, Cell.dot],
    [Cell.P, Cell.P, Cell.P, Cell.P, Cell.P],
    [Cell.R, Cell.N, Cell.K, Cell.N, Cell.R] ]

/-- The initial position without both kings. -/
def boardWithoutKings : Board :=
  [ [Cell.r, Cell.n, Cell.dot, Cell.n, Cell.r],
    [Cell.p, Cell.p, Cell.p, Cell.p, Cell.p],
    [Cell.dot, Cell.dot, Cell.dot, Cell.dot, Cell.dot],
    [Cell.dot, Cell.dot, Cell.dot, Cell.dot, Cell.dot],
    [Cell.P, Cell.P, Cell.P, Cell.P, Cell.P],
    [Cell.R, Cell.N, Cell.dot, Cell.N, Cell.R] ]

/-- A position in which the white rook on (5, 0) has a clear file up to the black pawn on
(1, 0). -/
def rookFileBoard : Board :=
  [ [Cell.dot, Cell.dot, Cell.k, Cell.dot, Cell.dot],
    [Cell.p, Cell.dot, Cell.dot, Cell.dot, Cell.dot],
    [Cell.dot, Cell.dot, Cell.dot, Cell.dot, Cell.dot],
    [Cell.dot, Cell.dot, Cell.dot, Cell.dot, Cell.dot],
    [Cell.dot, Cell.dot, Cell.dot, Cell.dot, Cell.dot],
    [Cell.R, Cell.dot, Cell.K, Cell.dot, Cell.dot] ]

/-- Exhaustive minimax without pruning, as the equivalence property words it: the missing
white king is looked for first, then the missing black king, then depth 0, then the
absence of moves; otherwise the value is the maximum (white to move) or the minimum (black
to move) of the values of all generated moves, taken in generation order. -/
def exhaustive (depth : Nat) (board : Board) (maximizing : Bool) : Score :=
  if !(board.flatten.contains Cell.K) then fin (-9999)
  else if !(board.flatten.contains Cell.k) then fin 9999
  else
    match depth with
    | 0 => fin (evaluate board)
    | d + 1 =>
      let moves := generateMoves board maximizing
      if moves.length = 0 then fin (evaluate board)
      else if maximizing then
        moves.foldl (fun best move => max best (exhaustive d (applyMove board move) false)) ⊥
      else
        moves.foldl (fun best move => min best (exhaustive d (applyMove board move) true)) ⊤

/-- The relation between a value `v` returned for the window `(a, b)` and the exact value
`t`: inside the window `v` is exact, at or below `a` it is an upper bound of `t`, at or
above `b` it is a lower bound of `t`. -/
def FailSoft (v t a b : Score) : Prop :=
  (a < v → v < b → v = t) ∧ (v ≤ a → t ≤ v) ∧ (b ≤ v → v ≤ t)

/-- The sum over all cells of a board of the weight `f` of the cell. -/
def cellSum (f : Cell → Int) (board : Board) : Int :=
  (board.flatten.map f).sum

/-- The thirty squares of the grid in row-major order: the square with index `i` is in
row `i / 5` and column `i % 5`. -/
def rowMajorSquares : List Square :=
  (List.range 30).map (fun i => (((i / 5 : Nat) : Int), ((i % 5 : Nat) : Int)))

/-- The moves that the generator appends for one source square: the moves of the piece on
it when the piece belongs to the side to move, none otherwise. -/
def movesFrom (board : Board) (side : Bool) (sq : Square) : List Move :=
  if sideOf (cellAt board sq.1 sq.2) = some side then
    pieceMoves board sq.1 sq.2 (cellAt board sq.1 sq.2) side
  else []

/-- A position in which the white pawn on (1, 1) can step to the empty square (0, 1) of
row 0. -/
def promotionBoard : Board :=
  [ [Cell.dot, Cell.dot, Cell.k, Cell.dot, Cell.dot],
    [Cell.dot, Cell.P, Cell.dot, Cell.dot, Cell.dot],
    [Cell.dot, Cell.dot, Cell.dot, Cell.dot, Cell.dot],
    [Cell.dot, Cell.dot, Cell.dot, Cell.dot, Cell.dot],
    [Cell.dot, Cell.dot, Cell.dot, Cell.dot, Cell.dot],
    [Cell.dot, Cell.dot, Cell.K, Cell.dot, Cell.dot] ]

/-- A position with one king of each colour in which the white rook on (5, 0) has a clear
file up to the black king on (0, 0). -/
def kingCaptureBoard : Board :=
  [ [Cell.k, Cell.dot, Cell.dot, Cell.dot, Cell.dot],
    [Cell.dot, Cell.dot, Cell.dot, Cell.dot, Cell.dot],
    [Cell.dot, Cell.dot, Cell.dot, Cell.dot, Cell.dot],
    [Cell.dot, Cell.dot, Cell.dot, Cell.dot, Cell.dot],
    [Cell.dot, Cell.dot, Cell.dot, Cell.dot, Cell.dot],
    [Cell.R, Cell.dot, Cell.dot, Cell.dot, Cell.K] ]

/-! ## Move generation: membership lemmas -/

theorem mem_generateMoves (board : Board) (w : Bool) (m : Move) :
    m ∈ generateMoves board w ↔
      ∃ r ∈ ([0, 1, 2, 3, 4, 5] : List Int), ∃ c ∈ ([0, 1, 2, 3, 4] : List Int),
        sideOf (cellAt board r c) = some w ∧ m ∈ pieceMoves board r c (cellAt board r c) w := by
  unfold generateMoves
  simp only [List.mem_flatMap]
  constructor
  · rintro ⟨r, hr, c, hc, h⟩
    refine ⟨r, hr, c, hc, ?_⟩
    revert h
    cases w <;> cases hp : cellAt board r c <;> simp [toUpperCase, toLowerCase, sideOf]
  · rintro ⟨r, hr, c, hc, hs, h⟩
    refine ⟨r, hr, c, hc, ?_⟩
    revert hs h
    cases w <;> cases hp : cellAt board r c <;> simp [toUpperCase, toLowerCase, sideOf]

theorem inBounds_iff (nr nc : Int) :
    inBounds nr nc = true ↔ 0 ≤ nr ∧ nr < 6 ∧ 0 ≤ nc ∧ nc < 5 := by
  simp [inBounds, and_assoc]

theorem capture_iff (target : Cell) (w : Bool) :
    (decide (target ≠ Cell.dot) && caseDiffers target w) = true ↔ sideOf target = some (!w) := by
  cases target <;> cases w <;> simp [caseDiffers, toUpperCase, sideOf]

theorem capture_iff2 (target : Cell) (w : Bool) :
    (target ≠ Cell.dot ∧ caseDiffers target w = true) ↔ sideOf target = some (!w) := by
  cases target <;> cases w <;> simp [caseDiffers, toUpperCase, sideOf]

theorem landing_iff (target : Cell) (w : Bool) :
    (decide (target = Cell.dot) || caseDiffers target w) = true ↔ sideOf target ≠ some w := by
  cases target <;> cases w <;> simp [caseDiffers, toUpperCase, sideOf]

theorem mem_pieceMoves_pawn (board : Board) (r c : Int) (piece : Cell) (w : Bool)
    (hp : toUpperCase piece = Cell.P) (m : Move) :
    m ∈ pieceMoves board r c piece w ↔
      m.1 = (r, c) ∧ m.2.1 = r + (if w then -1 else 1) ∧ 0 ≤ m.2.1 ∧ m.2.1 < 6 ∧
        ((m.2.2 = c ∧ cellAt board m.2.1 c = Cell.dot) ∨
          ((m.2.2 = c - 1 ∨ m.2.2 = c + 1) ∧ 0 ≤ m.2.2 ∧ m.2.2 < 5 ∧
            sideOf (cellAt board m.2.1 m.2.2) = some (!w))) := by
  obtain ⟨⟨fr, fc⟩, ⟨x, y⟩⟩ := m
  unfold pieceMoves
  simp only [hp, if_true, List.mem_append, List.mem_flatMap, List.mem_cons, List.mem_singleton,
    List.not_mem_nil, or_false, exists_eq_or_imp, exists_eq_left, inBounds_iff, capture_iff,
    List.mem_ite_nil_right, Bool.and_eq_true, decide_eq_true_eq, Prod.mk.injEq]
  simp only [capture_iff2, sub_eq_add_neg]
  generalize (r + if w = true then -1 else 1) = nr
  constructor
  · rintro (⟨⟨⟨h1, h2⟩, h3⟩, ⟨rfl, rfl⟩, rfl, rfl⟩ | ⟨⟨h1, h2, h3, h4⟩, h5, ⟨rfl, rfl⟩, rfl, rfl⟩ |
      ⟨⟨h1, h2, h3, h4⟩, h5, ⟨rfl, rfl⟩, rfl, rfl⟩)
    · exact ⟨⟨rfl, rfl⟩, rfl, h1, h2, Or.inl ⟨rfl, h3⟩⟩
    · exact ⟨⟨rfl, rfl⟩, rfl, h1, h2, Or.inr ⟨Or.inl rfl, h3, h4, h5⟩⟩
    · exact ⟨⟨rfl, rfl⟩, rfl, h1, h2, Or.inr ⟨Or.inr rfl, h3, h4, h5⟩⟩
  · rintro ⟨⟨rfl, rfl⟩, rfl, h1, h2, (⟨rfl, h3⟩ | ⟨(rfl | rfl), h3, h4, h5⟩)⟩
    · exact Or.inl ⟨⟨⟨h1, h2⟩, h3⟩, ⟨rfl, rfl⟩, rfl, rfl⟩
    · exact Or.inr (Or.inl ⟨⟨h1, h2, h3, h4⟩, h5, ⟨rfl, rfl⟩, rfl, rfl⟩)
    · exact Or.inr (Or.inr ⟨⟨h1, h2, h3, h4⟩, h5, ⟨rfl, rfl⟩, rfl, rfl⟩)

theorem landing_iff2 (target : Cell) (w : Bool) :
    (target = Cell.dot ∨ caseDiffers target w = true) ↔ sideOf target ≠ some w := by
  cases target <;> cases w <;> simp [caseDiffers, toUpperCase, sideOf]

theorem mem_rookRay (board : Board) (r c : Int) (w : Bool) (dr dc : Int) (m : Move) :
    ∀ (steps : Nat) (i : Int), m ∈ rookRay board r c w dr dc steps i ↔
      ∃ k : Nat, k < steps ∧ m = ((r, c), (r + dr * (i + k), c + dc * (i + k))) ∧
        (∀ j : Nat, j < k → inBounds (r + dr * (i + j)) (c + dc * (i + j)) = true ∧
          cellAt board (r + dr * (i + j)) (c + dc * (i + j)) = Cell.dot) ∧
        inBounds (r + dr * (i + k)) (c + dc * (i + k)) = true ∧
        sideOf (cellAt board (r + dr * (i + k)) (c + dc * (i + k))) ≠ some w := by
  intro steps
  induction steps with
  | zero => intro i; simp [rookRay]
  | succ n ih =>
    intro i
    unfold rookRay
    by_cases hb : inBounds (r + dr * i) (c + dc * i) = true
    · by_cases hd : cellAt board (r + dr * i) (c + dc * i) = Cell.dot
      · simp only [hb, hd, Bool.not_true, Bool.false_eq_true, if_false, if_true, List.mem_cons, ih]
        constructor
        · rintro (rfl | ⟨k, hk, rfl, hj, hkb, hks⟩)
          · refine ⟨0, by omega, by simp, by simp, by simpa using hb, by simp [hd, sideOf]⟩
          · refine ⟨k + 1, by omega, ?_, ?_, ?_, ?_⟩
            · simp only [Nat.cast_add, Nat.cast_one]
              rw [show i + ((k : Int) + 1) = i + 1 + k by ring]
            · intro j hjk
              cases j with
              | zero => simpa using ⟨hb, hd⟩
              | succ j =>
                have := hj j (by omega)
                simp only [Nat.cast_add, Nat.cast_one]
                rw [show i + ((j : Int) + 1) = i + 1 + j by ring]
                exact this
            · simp only [Nat.cast_add, Nat.cast_one]
              rw [show i + ((k : Int) + 1) = i + 1 + k by ring]
              exact hkb
            · simp only [Nat.cast_add, Nat.cast_one]
              rw [show i + ((k : Int) + 1) = i + 1 + k by ring]
              exact hks
        · rintro ⟨k, hk, rfl, hj, hkb, hks⟩
          cases k with
          | zero => left; simp
          | succ k =>
            right
            refine ⟨k, by omega, ?_, ?_, ?_, ?_⟩
            · simp only [Nat.cast_add, Nat.cast_one]
              rw [show i + ((k : Int) + 1) = i + 1 + k by ring]
            · intro j hjk
              have := hj (j + 1) (by omega)
              simp only [Nat.cast_add, Nat.cast_one] at this
              rw [show i + ((j : Int) + 1) = i + 1 + j by ring] at this
              exact this
            · simp only [Nat.cast_add, Nat.cast_one] at hkb
              rw [show i + ((k : Int) + 1) = i + 1 + k by ring] at hkb
              exact hkb
            · simp only [Nat.cast_add, Nat.cast_one] at hks
              rw [show i + ((k : Int) + 1) = i + 1 + k by ring] at hks
              exact hks
      · have hside : (caseDiffers (cellAt board (r + dr * i) (c + dc * i)) w = true) ↔
            sideOf (cellAt board (r + dr * i) (c + dc * i)) ≠ some w := by
          rw [← landing_iff2]; simp [hd]
        simp only [hb, hd, Bool.not_true, Bool.false_eq_true, if_false]
        constructor
        · intro h
          split at h
          · rename_i hc
            simp only [List.mem_singleton] at h
            subst h
            exact ⟨0, by omega, by simp, by simp, by simpa using hb, by simpa using hside.1 hc⟩
          · simp at h
        · rintro ⟨k, hk, rfl, hj, hkb, hks⟩
          cases k with
          | zero =>
            simp only [Nat.cast_zero, add_zero] at hks ⊢
            rw [if_pos (hside.2 hks)]
            simp
          | succ k =>
            have := (hj 0 (by omega)).2
            simp only [Nat.cast_zero, add_zero] at this
            exact absurd this hd
    · simp only [hb, Bool.not_false, if_true, List.not_mem_nil, false_iff]
      rintro ⟨k, hk, rfl, hj, hkb, hks⟩
      cases k with
      | zero => simp only [Nat.cast_zero, add_zero] at hkb; exact hb hkb
      | succ k =>
        have := (hj 0 (by omega)).1
        simp only [Nat.cast_zero, add_zero] at this
        exact hb this

theorem mem_pieceMoves_rook (board : Board) (r c : Int) (piece : Cell) (w : Bool)
    (hp : toUpperCase piece = Cell.R) (m : Move) :
    m ∈ pieceMoves board r c piece w ↔
      ∃ d ∈ ([(-1, 0), (1, 0), (0, -1), (0, 1)] : List (Int × Int)),
        m ∈ rookRay board r c w d.1 d.2 5 1 := by
  unfold pieceMoves
  simp only [hp, List.mem_flatMap]
  simp

theorem mem_step (board : Board) (r c : Int) (w : Bool) (nr nc : Int) (m : Move) :
    m ∈ (if inBounds nr nc = true then
          if (decide (cellAt board nr nc = Cell.dot) || caseDiffers (cellAt board nr nc) w) = true
          then [((r, c), (nr, nc))] else []
        else []) ↔
      m = ((r, c), (nr, nc)) ∧ inBounds nr nc = true ∧ sideOf (cellAt board nr nc) ≠ some w := by
  by_cases hb : inBounds nr nc = true
  · by_cases hs : sideOf (cellAt board nr nc) = some w
    · have hl := (landing_iff (cellAt board nr nc) w).not.2 (not_not.2 hs)
      rw [if_pos hb, if_neg hl]
      simp [hs]
    · have hl := (landing_iff (cellAt board nr nc) w).2 hs
      rw [if_pos hb, if_pos hl]
      simp [hb, hs]
  · simp [hb]

theorem mem_pieceMoves_knight (board : Board) (r c : Int) (piece : Cell) (w : Bool)
    (hp : toUpperCase piece = Cell.N) (m : Move) :
    m ∈ pieceMoves board r c piece w ↔
      ∃ d ∈ ([(-2, -1), (-2, 1), (-1, -2), (-1, 2), (1, -2), (1, 2), (2, -1), (2, 1)] :
          List (Int × Int)),
        m = ((r, c), (r + d.1, c + d.2)) ∧ inBounds (r + d.1) (c + d.2) = true ∧
          sideOf (cellAt board (r + d.1) (c + d.2)) ≠ some w := by
  unfold pieceMoves
  rw [if_neg (by simp [hp]), if_neg (by simp [hp]), if_pos hp]
  simp only [List.mem_flatMap, mem_step]

theorem mem_pieceMoves_king (board : Board) (r c : Int) (piece : Cell) (w : Bool)
    (hp : toUpperCase piece = Cell.K) (m : Move) :
    m ∈ pieceMoves board r c piece w ↔
      ∃ dr ∈ ([-1, 0, 1] : List Int), ∃ dc ∈ ([-1, 0, 1] : List Int),
        ¬ (dr = 0 ∧ dc = 0) ∧ m = ((r, c), (r + dr, c + dc)) ∧
          inBounds (r + dr) (c + dc) = true ∧
          sideOf (cellAt board (r + dr) (c + dc)) ≠ some w := by
  unfold pieceMoves
  rw [if_neg (by simp [hp]), if_neg (by simp [hp]), if_neg (by simp [hp]), if_pos hp]
  simp only [List.mem_flatMap]
  constructor
  · rintro ⟨dr, hdr, dc, hdc, h⟩
    refine ⟨dr, hdr, dc, hdc, ?_⟩
    split at h
    · simp at h
    · rename_i h0
      refine ⟨by simpa using h0, ?_⟩
      exact (mem_step board r c w _ _ m).1 h
  · rintro ⟨dr, hdr, dc, hdc, h0, h⟩
    refine ⟨dr, hdr, dc, hdc, ?_⟩
    rw [if_neg (by simpa using h0)]
    exact (mem_step board r c w _ _ m).2 h

theorem pieceMoves_empty (board : Board) (r c : Int) (w : Bool) :
    pieceMoves board r c Cell.dot w = [] := by
  simp [pieceMoves, toUpperCase]

/-- Every move of a piece starts on the square of the piece and ends on a square that
does not hold a piece of the moving side. -/
theorem pieceMoves_sound (board : Board) (r c : Int) (piece : Cell) (w : Bool) (m : Move)
    (h : m ∈ pieceMoves board r c piece w) :
    m.1 = (r, c) ∧ sideOf (cellAt board m.2.1 m.2.2) ≠ some w := by
  have hcases : toUpperCase piece = Cell.P ∨ toUpperCase piece = Cell.R ∨
      toUpperCase piece = Cell.N ∨ toUpperCase piece = Cell.K ∨ piece = Cell.dot := by
    cases piece <;> simp [toUpperCase]
  rcases hcases with hp | hp | hp | hp | hp
  · rw [mem_pieceMoves_pawn board r c piece w hp] at h
    obtain ⟨h1, -, -, -, h5⟩ := h
    refine ⟨h1, ?_⟩
    rcases h5 with ⟨hy, hd⟩ | ⟨-, -, -, hs⟩
    · rw [hy, hd]; simp [sideOf]
    · rw [hs]; cases w <;> simp
  · rw [mem_pieceMoves_rook board r c piece w hp] at h
    obtain ⟨d, -, hd⟩ := h
    rw [mem_rookRay] at hd
    obtain ⟨k, -, rfl, -, -, hs⟩ := hd
    exact ⟨rfl, hs⟩
  · rw [mem_pieceMoves_knight board r c piece w hp] at h
    obtain ⟨d, -, rfl, -, hs⟩ := h
    exact ⟨rfl, hs⟩
  · rw [mem_pieceMoves_king board r c piece w hp] at h
    obtain ⟨dr, -, dc, -, -, rfl, -, hs⟩ := h
    exact ⟨rfl, hs⟩
  · subst hp
    rw [pieceMoves_empty] at h
    simp at h

/-- Every move of a piece that stands on the grid ends on the grid. -/
theorem pieceMoves_inRange (board : Board) (r c : Int) (piece : Cell) (w : Bool) (m : Move)
    (hrc : InRange (r, c)) (h : m ∈ pieceMoves board r c piece w) : InRange m.2 := by
  have hcases : toUpperCase piece = Cell.P ∨ toUpperCase piece = Cell.R ∨
      toUpperCase piece = Cell.N ∨ toUpperCase piece = Cell.K ∨ piece = Cell.dot := by
    cases piece <;> simp [toUpperCase]
  unfold InRange at hrc ⊢
  rcases hcases with hp | hp | hp | hp | hp
  · rw [mem_pieceMoves_pawn board r c piece w hp] at h
    obtain ⟨-, -, h3, h4, h5⟩ := h
    rcases h5 with ⟨hy, -⟩ | ⟨-, h6, h7, -⟩
    · simp only at hrc
      exact ⟨h3, h4, by omega, by omega⟩
    · exact ⟨h3, h4, h6, h7⟩
  · rw [mem_pieceMoves_rook board r c piece w hp] at h
    obtain ⟨d, -, hd⟩ := h
    rw [mem_rookRay] at hd
    obtain ⟨k, -, rfl, -, hb, -⟩ := hd
    exact (inBounds_iff _ _).1 hb
  · rw [mem_pieceMoves_knight board r c piece w hp] at h
    obtain ⟨d, -, rfl, hb, -⟩ := h
    exact (inBounds_iff _ _).1 hb
  · rw [mem_pieceMoves_king board r c piece w hp] at h
    obtain ⟨dr, -, dc, -, -, rfl, hb, -⟩ := h
    exact (inBounds_iff _ _).1 hb
  · subst hp
    rw [pieceMoves_empty] at h
    simp at h

theorem mem_rows_iff (r : Int) : r ∈ ([0, 1, 2, 3, 4, 5] : List Int) ↔ 0 ≤ r ∧ r < 6 := by
  simp only [List.mem_cons, List.mem_singleton, List.not_mem_nil, or_false]
  omega

theorem mem_cols_iff (c : Int) : c ∈ ([0, 1, 2, 3, 4] : List Int) ↔ 0 ≤ c ∧ c < 5 := by
  simp only [List.mem_cons, List.mem_singleton, List.not_mem_nil, or_false]
  omega

/-- A generated move is a move of the piece that stands on its source square, which is a
square of the grid holding a piece of the side to move. -/
theorem mem_generateMoves_iff (board : Board) (w : Bool) (m : Move) :
    m ∈ generateMoves board w ↔
      InRange m.1 ∧ sideOf (cellAt board m.1.1 m.1.2) = some w ∧
        m ∈ pieceMoves board m.1.1 m.1.2 (cellAt board m.1.1 m.1.2) w := by
  rw [mem_generateMoves]
  constructor
  · rintro ⟨r, hr, c, hc, hs, hm⟩
    have h1 := (pieceMoves_sound board r c _ w m hm).1
    rw [h1]
    exact ⟨⟨((mem_rows_iff r).1 hr).1, ((mem_rows_iff r).1 hr).2, ((mem_cols_iff c).1 hc).1,
      ((mem_cols_iff c).1 hc).2⟩, hs, hm⟩
  · rintro ⟨⟨h1, h2, h3, h4⟩, hs, hm⟩
    exact ⟨m.1.1, (mem_rows_iff _).2 ⟨h1, h2⟩, m.1.2, (mem_cols_iff _).2 ⟨h3, h4⟩, hs, hm⟩

theorem generateMoves_inRange (board : Board) (w : Bool) (m : Move)
    (h : m ∈ generateMoves board w) : InRange m.1 ∧ InRange m.2 := by
  rw [mem_generateMoves_iff] at h
  exact ⟨h.1, pieceMoves_inRange board m.1.1 m.1.2 _ w m h.1 h.2.2⟩

/-! ## Reads and writes on a board -/

theorem cellAt_setCell_ne (board : Board) (r c : Int) (v : Cell) (r1 c1 : Int)
    (h : ¬ (r1 = r ∧ c1 = c)) : cellAt (setCell board r c v) r1 c1 = cellAt board r1 c1 := by
  unfold setCell
  rcases r with i | i <;> rcases c with j | j <;> try rfl
  simp only
  cases hrow : board[i]? with
  | none => rfl
  | some row =>
    simp only
    unfold cellAt
    rcases r1 with i1 | i1 <;> rcases c1 with j1 | j1 <;> try rfl
    simp only
    by_cases hi : i = i1
    · subst hi
      have hj : j ≠ j1 := by
        intro hj
        apply h
        subst hj
        exact ⟨rfl, rfl⟩
      have hlt : i < board.length := by
        rcases Nat.lt_or_ge i board.length with hlt | hge
        · exact hlt
        · rw [List.getElem?_eq_none hge] at hrow
          cases hrow
      rw [List.getElem?_set_self hlt, hrow]
      simp only
      rw [List.getElem?_set_ne hj]
    · rw [List.getElem?_set_ne hi]

theorem cellAt_setCell_eq (board : Board) (r c : Int) (v : Cell) (hwf : WellFormed board)
    (hrc : InRange (r, c)) : cellAt (setCell board r c v) r c = v := by
  obtain ⟨h1, h2, h3, h4⟩ := hrc
  simp only at h1 h2 h3 h4
  obtain ⟨i, rfl⟩ := Int.eq_ofNat_of_zero_le h1
  obtain ⟨j, rfl⟩ := Int.eq_ofNat_of_zero_le h3
  have hi : i < board.length := by rw [hwf.1]; omega
  have hrow : board[i]? = some board[i] := List.getElem?_eq_getElem hi
  have hj : j < board[i].length := by
    rw [hwf.2 _ (List.getElem_mem hi)]; omega
  show cellAt (setCell board (Int.ofNat i) (Int.ofNat j) v) (Int.ofNat i) (Int.ofNat j) = v
  unfold setCell
  simp only [hrow]
  unfold cellAt
  simp only [List.getElem?_set_self hi, List.getElem?_set_self hj]

theorem wellFormed_setCell (board : Board) (r c : Int) (v : Cell) (hwf : WellFormed board) :
    WellFormed (setCell board r c v) := by
  unfold setCell
  rcases r with i | i <;> rcases c with j | j <;> try exact hwf
  simp only
  cases hrow : board[i]? with
  | none => exact hwf
  | some row =>
    simp only
    refine ⟨by rw [List.length_set]; exact hwf.1, ?_⟩
    intro row1 hrow1
    rcases List.mem_or_eq_of_mem_set hrow1 with hm | rfl
    · exact hwf.2 _ hm
    · rw [List.length_set]
      exact hwf.2 _ (List.getElem?_mem hrow)

theorem cellAt_eq_dot_of_not_inRange (board : Board) (hwf : WellFormed board) (r c : Int)
    (h : ¬ InRange (r, c)) : cellAt board r c = Cell.dot := by
  unfold cellAt
  rcases r with i | i <;> rcases c with j | j <;> try rfl
  simp only
  cases hrow : board[i]? with
  | none => rfl
  | some row =>
    simp only
    cases hcell : row[j]? with
    | none => rfl
    | some cell =>
      exfalso
      apply h
      have hi : i < board.length := by
        rcases Nat.lt_or_ge i board.length with hlt | hge
        · exact hlt
        · rw [List.getElem?_eq_none hge] at hrow
          cases hrow
      have hj : j < row.length := by
        rcases Nat.lt_or_ge j row.length with hlt | hge
        · exact hlt
        · rw [List.getElem?_eq_none hge] at hcell
          cases hcell
      rw [hwf.1] at hi
      rw [hwf.2 _ (List.getElem?_mem hrow)] at hj
      refine ⟨?_, ?_, ?_, ?_⟩ <;> simp only [Int.ofNat_eq_coe] <;> omega

/-! ## Move application -/

theorem applyMove_eq (board : Board) (move : Move) :
    applyMove board move =
      if cellAt board move.1.1 move.1.2 = Cell.P ∧ move.2.1 = 0 then
        setCell (setCell (setCell board move.2.1 move.2.2 (cellAt board move.1.1 move.1.2))
          move.1.1 move.1.2 Cell.dot) move.2.1 move.2.2 Cell.N
      else if cellAt board move.1.1 move.1.2 = Cell.p ∧ move.2.1 = 5 then
        setCell (setCell (setCell board move.2.1 move.2.2 (cellAt board move.1.1 move.1.2))
          move.1.1 move.1.2 Cell.dot) move.2.1 move.2.2 Cell.n
      else
        setCell (setCell board move.2.1 move.2.2 (cellAt board move.1.1 move.1.2))
          move.1.1 move.1.2 Cell.dot := by
  unfold applyMove
  simp only [List.map_id']
  by_cases h1 : cellAt board move.1.1 move.1.2 = Cell.P ∧ move.2.1 = 0
  · have h2 : ¬ (cellAt board move.1.1 move.1.2 = Cell.p ∧ move.2.1 = 5) := by
      rintro ⟨h, -⟩
      rw [h1.1] at h
      cases h
    rw [if_pos h1, if_pos h1, if_neg h2]
  · rw [if_neg h1, if_neg h1]

theorem wellFormed_applyMove (board : Board) (move : Move) (hwf : WellFormed board) :
    WellFormed (applyMove board move) := by
  rw [applyMove_eq]
  split_ifs <;> repeat apply wellFormed_setCell
  all_goals exact hwf

/-- Squares other than the two squares of the move keep their content. -/
theorem cellAt_applyMove_other (board : Board) (move : Move) (r c : Int)
    (hfrom : ¬ (r = move.1.1 ∧ c = move.1.2)) (hto : ¬ (r = move.2.1 ∧ c = move.2.2)) :
    cellAt (applyMove board move) r c = cellAt board r c := by
  rw [applyMove_eq]
  split_ifs <;> simp only [cellAt_setCell_ne _ _ _ _ _ _ hfrom, cellAt_setCell_ne _ _ _ _ _ _ hto]

/-- The source square of a move to another square is left empty. -/
theorem cellAt_applyMove_from (board : Board) (move : Move) (hwf : WellFormed board)
    (hfrom : InRange move.1) (hne : move.1 ≠ move.2) :
    cellAt (applyMove board move) move.1.1 move.1.2 = Cell.dot := by
  have hft : ¬ (move.1.1 = move.2.1 ∧ move.1.2 = move.2.2) := by
    rintro ⟨h1, h2⟩
    exact hne (Prod.ext h1 h2)
  rw [applyMove_eq]
  split_ifs
  · rw [cellAt_setCell_ne _ _ _ _ _ _ hft]
    exact cellAt_setCell_eq _ _ _ _ (wellFormed_setCell _ _ _ _ hwf) hfrom
  · rw [cellAt_setCell_ne _ _ _ _ _ _ hft]
    exact cellAt_setCell_eq _ _ _ _ (wellFormed_setCell _ _ _ _ hwf) hfrom
  · exact cellAt_setCell_eq _ _ _ _ (wellFormed_setCell _ _ _ _ hwf) hfrom

/-- The destination square of a move from another square holds the moved piece, replaced
by a knight when a pawn reaches its last row. -/
theorem cellAt_applyMove_to (board : Board) (move : Move) (hwf : WellFormed board)
    (hto : InRange move.2) (hne : move.1 ≠ move.2) :
    cellAt (applyMove board move) move.2.1 move.2.2 =
      if cellAt board move.1.1 move.1.2 = Cell.P ∧ move.2.1 = 0 then Cell.N
      else if cellAt board move.1.1 move.1.2 = Cell.p ∧ move.2.1 = 5 then Cell.n
      else cellAt board move.1.1 move.1.2 := by
  have htf : ¬ (move.2.1 = move.1.1 ∧ move.2.2 = move.1.2) := by
    rintro ⟨h1, h2⟩
    exact hne (Prod.ext h1.symm h2.symm)
  rw [applyMove_eq]
  split_ifs
  · exact cellAt_setCell_eq _ _ _ _
      (wellFormed_setCell _ _ _ _ (wellFormed_setCell _ _ _ _ hwf)) hto
  · exact cellAt_setCell_eq _ _ _ _
      (wellFormed_setCell _ _ _ _ (wellFormed_setCell _ _ _ _ hwf)) hto
  · rw [cellAt_setCell_ne _ _ _ _ _ _ htf]
    exact cellAt_setCell_eq _ _ _ _ hwf hto

/-! ## The cells of a 6x5 board -/

theorem list_length_five {α : Type} (l : List α) (h : l.length = 5) :
    ∃ a b c d e, l = [a, b, c, d, e] := by
  match l, h with
  | [a, b, c, d, e], _ => exact ⟨a, b, c, d, e, rfl⟩

theorem list_length_six {α : Type} (l : List α) (h : l.length = 6) :
    ∃ a b c d e f, l = [a, b, c, d, e, f] := by
  match l, h with
  | [a, b, c, d, e, f], _ => exact ⟨a, b, c, d, e, f, rfl⟩

/-- A 6x5 board is the table of its thirty cells. -/
theorem board_eq_table (board : Board) (hwf : WellFormed board) :
    board = ([0, 1, 2, 3, 4, 5] : List Int).map (fun r =>
      ([0, 1, 2, 3, 4] : List Int).map (fun c => cellAt board r c)) := by
  obtain ⟨hlen, hrows⟩ := hwf
  obtain ⟨r0, r1, r2, r3, r4, r5, rfl⟩ := list_length_six board hlen
  obtain ⟨a0, b0, c0, d0, e0, rfl⟩ := list_length_five r0 (hrows _ (by simp))
  obtain ⟨a1, b1, c1, d1, e1, rfl⟩ := list_length_five r1 (hrows _ (by simp))
  obtain ⟨a2, b2, c2, d2, e2, rfl⟩ := list_length_five r2 (hrows _ (by simp))
  obtain ⟨a3, b3, c3, d3, e3, rfl⟩ := list_length_five r3 (hrows _ (by simp))
  obtain ⟨a4, b4, c4, d4, e4, rfl⟩ := list_length_five r4 (hrows _ (by simp))
  obtain ⟨a5, b5, c5, d5, e5, rfl⟩ := list_length_five r5 (hrows _ (by simp))
  rfl

/-- On a 6x5 board the flattened board contains a cell value exactly when some square of
the grid holds it. -/
theorem mem_flatten_iff_hasCell (board : Board) (hwf : WellFormed board) (v : Cell) :
    v ∈ board.flatten ↔ HasCell board v := by
  unfold HasCell
  conv_lhs => rw [board_eq_table board hwf]
  rw [List.mem_flatten]
  constructor
  · rintro ⟨row, hrow, hv⟩
    rw [List.mem_map] at hrow
    obtain ⟨r, hr, rfl⟩ := hrow
    rw [List.mem_map] at hv
    obtain ⟨c, hc, rfl⟩ := hv
    exact ⟨r, hr, c, hc, rfl⟩
  · rintro ⟨r, hr, c, hc, rfl⟩
    exact ⟨_, List.mem_map.2 ⟨r, hr, rfl⟩, List.mem_map.2 ⟨c, hc, rfl⟩⟩

theorem contains_flatten_iff (board : Board) (hwf : WellFormed board) (v : Cell) :
    board.flatten.contains v = true ↔ HasCell board v := by
  rw [← mem_flatten_iff_hasCell board hwf]
  simp

/-! ## Unfolding the search -/

theorem minimax_zero (board : Board) (alpha beta : Score) (maximizing : Bool) :
    minimax 0 board alpha beta maximizing =
      if !(board.flatten.contains Cell.K) then (fin (-9999), none)
      else if !(board.flatten.contains Cell.k) then (fin 9999, none)
      else (fin (evaluate board), none) := by
  rw [minimax]

theorem minimax_succ (d : Nat) (board : Board) (alpha beta : Score) (maximizing : Bool) :
    minimax (d + 1) board alpha beta maximizing =
      if !(board.flatten.contains Cell.K) then (fin (-9999), none)
      else if !(board.flatten.contains Cell.k) then (fin 9999, none)
      else if (generateMoves board maximizing).length = 0 then (fin (evaluate board), none)
      else if maximizing then
        maxLoop (fun b a be => minimax d b a be false) board beta
          (generateMoves board maximizing) alpha ⊥ none
      else
        minLoop (fun b a be => minimax d b a be true) board alpha
          (generateMoves board maximizing) beta ⊤ none := by
  rw [minimax]

theorem minimax_without_white_king (depth : Nat) (board : Board) (alpha beta : Score)
    (maximizing : Bool) (hwf : WellFormed board) (hK : ¬ HasCell board Cell.K) :
    minimax depth board alpha beta maximizing = (fin (-9999), none) := by
  have h : board.flatten.contains Cell.K = false := by
    rw [← Bool.not_eq_true, contains_flatten_iff board hwf]
    exact hK
  cases depth
  · rw [minimax_zero, h]; rfl
  · rw [minimax_succ, h]; rfl

theorem minimax_without_black_king (depth : Nat) (board : Board) (alpha beta : Score)
    (maximizing : Bool) (hwf : WellFormed board) (hK : HasCell board Cell.K)
    (hk : ¬ HasCell board Cell.k) :
    minimax depth board alpha beta maximizing = (fin 9999, none) := by
  have h1 : board.flatten.contains Cell.K = true := (contains_flatten_iff board hwf _).2 hK
  have h2 : board.flatten.contains Cell.k = false := by
    rw [← Bool.not_eq_true, contains_flatten_iff board hwf]
    exact hk
  cases depth
  · rw [minimax_zero, h1, h2]; rfl
  · rw [minimax_succ, h1, h2]; rfl

/-! ## Writes through row references -/

theorem length_writeCell (store : Store) (ref : BoardRef) (r c : Int) (v : Cell) :
    (writeCell store ref r c v).length = store.length := by
  unfold writeCell
  rcases r with i | i <;> rcases c with j | j <;> try rfl
  simp only
  cases ref[i]? with
  | none => rfl
  | some a =>
    simp only
    cases store[a]? with
    | none => rfl
    | some row => simp only [List.length_set]

/-- A write through a board object leaves the rows below the rows of the object as they
are. -/
theorem writeCell_old (store : Store) (ref : BoardRef) (r c : Int) (v : Cell) (n : Nat)
    (href : ∀ a ∈ ref, n ≤ a) (a : Nat) (ha : a < n) :
    (writeCell store ref r c v)[a]? = store[a]? := by
  unfold writeCell
  rcases r with i | i <;> rcases c with j | j <;> try rfl
  simp only
  cases hi : ref[i]? with
  | none => rfl
  | some b =>
    simp only
    cases store[b]? with
    | none => rfl
    | some row =>
      simp only
      have hb : n ≤ b := href b (List.getElem?_mem hi)
      rw [List.getElem?_set_ne (by omega)]

/-- A write through a board object whose row references are valid and pairwise different
is the write `setCell` on the board value. -/
theorem boardOf_writeCell (store : Store) (ref : BoardRef) (r c : Int) (v : Cell)
    (hnodup : ref.Nodup) (hvalid : ∀ a ∈ ref, a < store.length) :
    boardOf (writeCell store ref r c v) ref = setCell (boardOf store ref) r c v := by
  unfold writeCell setCell
  rcases r with i | i <;> rcases c with j | j <;> try rfl
  simp only
  cases hi : ref[i]? with
  | none =>
    have : (boardOf store ref)[i]? = none := by
      unfold boardOf
      rw [List.getElem?_map, hi]
      rfl
    simp only [this]
  | some a =>
    have ha : a < store.length := hvalid a (List.getElem?_mem hi)
    have hrow : store[a]? = some store[a] := List.getElem?_eq_getElem ha
    have hb : (boardOf store ref)[i]? = some store[a] := by
      unfold boardOf
      rw [List.getElem?_map, hi]
      simp [hrow]
    simp only [hrow, hb]
    apply List.ext_getElem?
    intro k
    unfold boardOf
    rw [List.getElem?_map]
    by_cases hk : i = k
    · subst hk
      have hlen : i < (List.map (fun a => store[a]?.getD []) ref).length := by
        rw [List.length_map]
        rcases Nat.lt_or_ge i ref.length with h | h
        · exact h
        · rw [List.getElem?_eq_none h] at hi
          cases hi
      rw [List.getElem?_set_self hlen, hi]
      simp [List.getElem?_set_self ha]
    · rw [List.getElem?_set_ne hk, List.getElem?_map]
      cases hk2 : ref[k]? with
      | none => rfl
      | some b =>
        have hne : a ≠ b := by
          intro hab
          subst hab
          obtain ⟨h1, e1⟩ := List.getElem?_eq_some.1 hi
          obtain ⟨h2, e2⟩ := List.getElem?_eq_some.1 hk2
          exact hk ((List.Nodup.getElem_inj_iff hnodup).1 (e1.trans e2.symm))
        simp [List.getElem?_set_ne hne]

theorem fresh_rows_nodup (len n : Nat) :
    ((List.range n).map (fun i => len + i)).Nodup := by
  apply List.Nodup.map
  · intro a b h
    simp only at h
    omega
  · exact List.nodup_range n

theorem fresh_rows_bounds (len n : Nat) (a : Nat)
    (h : a ∈ (List.range n).map (fun i => len + i)) : len ≤ a ∧ a < len + n := by
  rw [List.mem_map] at h
  obtain ⟨i, hi, rfl⟩ := h
  rw [List.mem_range] at hi
  omega

/-- The fresh rows hold the copy of the board. -/
theorem boardOf_copy (store : Store) (board : BoardRef) :
    boardOf (store ++ boardOf store board)
      ((List.range board.length).map (fun i => store.length + i)) = boardOf store board := by
  apply List.ext_getElem?
  intro k
  have hlen : (boardOf store board).length = board.length := by
    unfold boardOf
    rw [List.length_map]
  rcases Nat.lt_or_ge k board.length with hk | hk
  · have h1 : (List.range board.length)[k]? = some k := by
      rw [List.getElem?_range hk]
    have h2 : (boardOf store board)[k]? = some (boardOf store board)[k] :=
      List.getElem?_eq_getElem (by rw [hlen]; exact hk)
    have h3 : (store ++ boardOf store board)[store.length + k]? =
        some (boardOf store board)[k] := by
      rw [List.getElem?_append_right (Nat.le_add_right _ _), Nat.add_sub_cancel_left, h2]
    rw [h2]
    show (List.map (fun a => ((store ++ boardOf store board)[a]?).getD [])
      ((List.range board.length).map (fun i => store.length + i)))[k]? = _
    rw [List.getElem?_map, List.getElem?_map, h1]
    simp only [Option.map_some', h3, Option.getD_some]
  · have hr : (boardOf store board)[k]? = none :=
      List.getElem?_eq_none (by rw [hlen]; exact hk)
    have hl : (boardOf (store ++ boardOf store board)
        ((List.range board.length).map (fun i => store.length + i)))[k]? = none := by
      apply List.getElem?_eq_none
      show (List.map (fun a => ((store ++ boardOf store board)[a]?).getD [])
        ((List.range board.length).map (fun i => store.length + i))).length ≤ k
      rw [List.length_map, List.length_map, List.length_range]
      exact hk
    rw [hr, hl]

theorem write_step (store : Store) (ref : BoardRef) (r c : Int) (v : Cell)
    (hnodup : ref.Nodup) (hvalid : ∀ a ∈ ref, a < store.length) :
    boardOf (writeCell store ref r c v) ref = setCell (boardOf store ref) r c v ∧
      ∀ a ∈ ref, a < (writeCell store ref r c v).length :=
  ⟨boardOf_writeCell store ref r c v hnodup hvalid, fun a ha => by
    rw [length_writeCell]; exact hvalid a ha⟩

/-- The new board object of `applyMoveInStore` stands for the board value `applyMove`, and
the rows that were in the store before the call are not written. -/
theorem applyMoveInStore_spec (store : Store) (board : BoardRef) (move : Move) :
    boardOf (applyMoveInStore store board move).1 (applyMoveInStore store board move).2 =
        applyMove (boardOf store board) move ∧
      ∀ a, a < store.length → (applyMoveInStore store board move).1[a]? = store[a]? := by
  have hnd := fresh_rows_nodup store.length board.length
  have hb := fresh_rows_bounds store.length board.length
  have hlow : ∀ a ∈ (List.range board.length).map (fun i => store.length + i),
      store.length ≤ a := fun a ha => (hb a ha).1
  have hlen1 : (store ++ boardOf store board).length = store.length + board.length := by
    rw [List.length_append]
    unfold boardOf
    rw [List.length_map]
  have hv1 : ∀ a ∈ (List.range board.length).map (fun i => store.length + i),
      a < (store ++ boardOf store board).length := by
    intro a ha
    rw [hlen1]
    exact (hb a ha).2
  have hold1 : ∀ a, a < store.length → (store ++ boardOf store board)[a]? = store[a]? :=
    fun a ha => List.getElem?_append_left ha
  have h1 := boardOf_copy store board
  obtain ⟨w2, hv2⟩ := write_step _ _ move.2.1 move.2.2
    (cellAt (boardOf store board) move.1.1 move.1.2) hnd hv1
  obtain ⟨w3, hv3⟩ := write_step _ _ move.1.1 move.1.2 Cell.dot hnd hv2
  obtain ⟨w4, hv4⟩ := write_step _ _ move.2.1 move.2.2 Cell.N hnd hv3
  obtain ⟨w5, -⟩ := write_step _ _ move.2.1 move.2.2 Cell.n hnd hv3
  rw [applyMove_eq]
  unfold applyMoveInStore
  simp only
  by_cases hP : cellAt (boardOf store board) move.1.1 move.1.2 = Cell.P ∧ move.2.1 = 0
  · have hp : ¬ (cellAt (boardOf store board) move.1.1 move.1.2 = Cell.p ∧ move.2.1 = 5) := by
      rintro ⟨h, -⟩
      rw [hP.1] at h
      cases h
    rw [if_pos hP, if_neg hp, if_pos hP]
    refine ⟨by rw [w4, w3, w2, h1], fun a ha => ?_⟩
    rw [writeCell_old _ _ _ _ _ store.length hlow a ha,
      writeCell_old _ _ _ _ _ store.length hlow a ha,
      writeCell_old _ _ _ _ _ store.length hlow a ha, hold1 a ha]
  · rw [if_neg hP, if_neg hP]
    by_cases hp : cellAt (boardOf store board) move.1.1 move.1.2 = Cell.p ∧ move.2.1 = 5
    · rw [if_pos hp, if_pos hp]
      refine ⟨by rw [w5, w3, w2, h1], fun a ha => ?_⟩
      rw [writeCell_old _ _ _ _ _ store.length hlow a ha,
        writeCell_old _ _ _ _ _ store.length hlow a ha,
        writeCell_old _ _ _ _ _ store.length hlow a ha, hold1 a ha]
    · rw [if_neg hp, if_neg hp]
      refine ⟨by rw [w3, w2, h1], fun a ha => ?_⟩
      rw [writeCell_old _ _ _ _ _ store.length hlow a ha,
        writeCell_old _ _ _ _ _ store.length hlow a ha, hold1 a ha]

/-! ## Sums over the cells of a board -/

theorem piece_value_eq (cell : Cell) : (PIECE_VALUES cell).getD 0 = materialValue cell := by
  cases cell <;> rfl

theorem sum_map_set {α : Type} (f : α → Int) (x : α) :
    ∀ (l : List α) (j : Nat) (h : j < l.length),
      ((l.set j x).map f).sum = (l.map f).sum - f (l.get ⟨j, h⟩) + f x := by
  intro l
  induction l with
  | nil => intro j h; exact absurd h (Nat.not_lt_zero _)
  | cons a rest ih =>
    intro j h
    cases j with
    | zero =>
      simp only [List.set_cons_zero, List.map_cons, List.sum_cons, List.get_eq_getElem,
        List.getElem_cons_zero]
      ring
    | succ j =>
      have hj : j < rest.length := Nat.lt_of_succ_lt_succ h
      have := ih j hj
      simp only [List.set_cons_succ, List.map_cons, List.sum_cons, List.get_eq_getElem,
        List.getElem_cons_succ] at this ⊢
      rw [this]
      ring

theorem cellSum_eq_rows (f : Cell → Int) (board : Board) :
    cellSum f board = (board.map (fun row => (row.map f).sum)).sum := by
  unfold cellSum
  induction board with
  | nil => rfl
  | cons row rest ih =>
    simp only [List.flatten_cons, List.map_append, List.sum_append, List.map_cons,
      List.sum_cons, ih]

/-- A write to a square of the grid changes the sum by the weights of the old and the new
cell. -/
theorem cellSum_setCell (f : Cell → Int) (board : Board) (r c : Int) (x : Cell)
    (hwf : WellFormed board) (hrc : InRange (r, c)) :
    cellSum f (setCell board r c x) = cellSum f board - f (cellAt board r c) + f x := by
  obtain ⟨h1, h2, h3, h4⟩ := hrc
  simp only at h1 h2 h3 h4
  obtain ⟨i, rfl⟩ := Int.eq_ofNat_of_zero_le h1
  obtain ⟨j, rfl⟩ := Int.eq_ofNat_of_zero_le h3
  have hi : i < board.length := by rw [hwf.1]; omega
  have hrow : board[i]? = some board[i] := List.getElem?_eq_getElem hi
  have hj : j < board[i].length := by
    rw [hwf.2 _ (List.getElem_mem hi)]; omega
  have hcell : board[i][j]? = some board[i][j] := List.getElem?_eq_getElem hj
  have hset : setCell board (Int.ofNat i) (Int.ofNat j) x = board.set i (board[i].set j x) := by
    unfold setCell
    simp only [hrow]
  have hat : cellAt board (Int.ofNat i) (Int.ofNat j) = board[i][j] := by
    unfold cellAt
    simp only [hrow, hcell]
  show cellSum f (setCell board (Int.ofNat i) (Int.ofNat j) x) =
    cellSum f board - f (cellAt board (Int.ofNat i) (Int.ofNat j)) + f x
  rw [hset, hat, cellSum_eq_rows, cellSum_eq_rows,
    sum_map_set (fun row => (row.map f).sum) _ board i hi]
  simp only [List.get_eq_getElem]
  rw [sum_map_set f x board[i] j hj]
  simp only [List.get_eq_getElem]
  ring

theorem foldl_add_eq {α : Type} (f : α → Int) (l : List α) (s : Int) :
    l.foldl (fun score x => score + f x) s = s + (l.map f).sum := by
  induction l generalizing s with
  | nil => simp
  | cons a rest ih =>
    simp only [List.foldl_cons, List.map_cons, List.sum_cons, ih]
    ring

/-- The evaluation is the sum of the values of the cells. -/
theorem evaluate_eq_cellSum (board : Board) : evaluate board = cellSum materialValue board := by
  rw [cellSum_eq_rows]
  unfold evaluate
  have hfun : (fun (score : Int) (row : List Cell) =>
        row.foldl (fun score cell => score + (PIECE_VALUES cell).getD 0) score) =
      (fun score row => score + (row.map materialValue).sum) := by
    funext score row
    have : (fun (score : Int) (cell : Cell) => score + (PIECE_VALUES cell).getD 0) =
        (fun score cell => score + materialValue cell) := by
      funext score cell
      rw [piece_value_eq]
    rw [this, foldl_add_eq]
  rw [hfun, foldl_add_eq]
  ring

/-- The number of cells with the value `v` is the sum of the indicator of `v`. -/
theorem count_eq_cellSum (board : Board) (v : Cell) :
    ((board.flatten.count v : Nat) : Int) = cellSum (fun x => if x = v then 1 else 0) board := by
  unfold cellSum
  induction board.flatten with
  | nil => rfl
  | cons a rest ih =>
    rw [List.count_cons, List.map_cons, List.sum_cons, ← ih]
    by_cases h : a = v
    · simp [h]
      ring
    · simp [h]

/-- The sum over the cells after a move between two different squares of the grid. -/
theorem cellSum_applyMove (f : Cell → Int) (board : Board) (move : Move)
    (hwf : WellFormed board) (hfrom : InRange move.1) (hto : InRange move.2)
    (hne : move.1 ≠ move.2) :
    cellSum f (applyMove board move) =
      cellSum f board - f (cellAt board move.2.1 move.2.2) - f (cellAt board move.1.1 move.1.2) +
        f Cell.dot + f (cellAt (applyMove board move) move.2.1 move.2.2) := by
  have hft : ¬ (move.1.1 = move.2.1 ∧ move.1.2 = move.2.2) := by
    rintro ⟨h1, h2⟩
    exact hne (Prod.ext h1 h2)
  have htf : ¬ (move.2.1 = move.1.1 ∧ move.2.2 = move.1.2) := by
    rintro ⟨h1, h2⟩
    exact hne (Prod.ext h1.symm h2.symm)
  have hwf1 := wellFormed_setCell board move.2.1 move.2.2 (cellAt board move.1.1 move.1.2) hwf
  have hwf2 := wellFormed_setCell _ move.1.1 move.1.2 Cell.dot hwf1
  have s1 := cellSum_setCell f board move.2.1 move.2.2 (cellAt board move.1.1 move.1.2) hwf hto
  have s2 := cellSum_setCell f _ move.1.1 move.1.2 Cell.dot hwf1 hfrom
  rw [cellAt_setCell_ne _ _ _ _ _ _ hft] at s2
  have c2 : cellAt (setCell (setCell board move.2.1 move.2.2 (cellAt board move.1.1 move.1.2))
      move.1.1 move.1.2 Cell.dot) move.2.1 move.2.2 = cellAt board move.1.1 move.1.2 := by
    rw [cellAt_setCell_ne _ _ _ _ _ _ htf]
    exact cellAt_setCell_eq _ _ _ _ hwf hto
  have s3 := fun x => cellSum_setCell f _ move.2.1 move.2.2 x hwf2 hto
  simp only [c2] at s3
  rw [cellAt_applyMove_to board move hwf hto hne, applyMove_eq]
  split_ifs
  · rw [s3, s2, s1]; ring
  · rw [s3, s2, s1]; ring
  · rw [s2, s1]; ring

/-- The content of the square of a move that starts and ends on it. -/
theorem cellAt_applyMove_same (board : Board) (move : Move) (hwf : WellFormed board)
    (hfrom : InRange move.1) (heq : move.1 = move.2) :
    cellAt (applyMove board move) move.1.1 move.1.2 =
      if cellAt board move.1.1 move.1.2 = Cell.P ∧ move.1.1 = 0 then Cell.N
      else if cellAt board move.1.1 move.1.2 = Cell.p ∧ move.1.1 = 5 then Cell.n
      else Cell.dot := by
  rw [applyMove_eq, ← heq]
  split_ifs
  · exact cellAt_setCell_eq _ _ _ _
      (wellFormed_setCell _ _ _ _ (wellFormed_setCell _ _ _ _ hwf)) hfrom
  · exact cellAt_setCell_eq _ _ _ _
      (wellFormed_setCell _ _ _ _ (wellFormed_setCell _ _ _ _ hwf)) hfrom
  · exact cellAt_setCell_eq _ _ _ _ (wellFormed_setCell _ _ _ _ hwf) hfrom

/-- The sum over the cells after a move that starts and ends on the same square. -/
theorem cellSum_applyMove_same (f : Cell → Int) (board : Board) (move : Move)
    (hwf : WellFormed board) (hfrom : InRange move.1) (heq : move.1 = move.2) :
    cellSum f (applyMove board move) =
      cellSum f board - f (cellAt board move.1.1 move.1.2) +
        f (cellAt (applyMove board move) move.1.1 move.1.2) := by
  have hwf1 := wellFormed_setCell board move.1.1 move.1.2 (cellAt board move.1.1 move.1.2) hwf
  have hwf2 := wellFormed_setCell _ move.1.1 move.1.2 Cell.dot hwf1
  have s1 := cellSum_setCell f board move.1.1 move.1.2 (cellAt board move.1.1 move.1.2) hwf hfrom
  have s2 := cellSum_setCell f _ move.1.1 move.1.2 Cell.dot hwf1 hfrom
  rw [cellAt_setCell_eq _ _ _ _ hwf hfrom] at s2
  have s3 := fun x => cellSum_setCell f _ move.1.1 move.1.2 x hwf2 hfrom
  simp only [cellAt_setCell_eq _ _ _ _ hwf1 hfrom] at s3
  rw [cellAt_applyMove_same board move hwf hfrom heq, applyMove_eq, ← heq]
  split_ifs
  · rw [s3, s2, s1]; ring
  · rw [s3, s2, s1]; ring
  · rw [s2, s1]; ring

theorem indicator_nonneg (v x : Cell) : (0 : Int) ≤ if x = v then 1 else 0 := by
  split_ifs <;> omega

/-- A move on the grid does not raise the number of cells with a value `v` that is neither
a knight nor the empty marker. -/
theorem count_applyMove_le (board : Board) (move : Move) (v : Cell) (hwf : WellFormed board)
    (hfrom : InRange move.1) (hto : InRange move.2)
    (hv : v ≠ Cell.N ∧ v ≠ Cell.n ∧ v ≠ Cell.dot) :
    (applyMove board move).flatten.count v ≤ board.flatten.count v := by
  have hd : (if Cell.dot = v then (1 : Int) else 0) = 0 := if_neg (Ne.symm hv.2.2)
  have hN : (if Cell.N = v then (1 : Int) else 0) = 0 := if_neg (Ne.symm hv.1)
  have hn : (if Cell.n = v then (1 : Int) else 0) = 0 := if_neg (Ne.symm hv.2.1)
  have h1 := indicator_nonneg v (cellAt board move.1.1 move.1.2)
  have h2 := indicator_nonneg v (cellAt board move.2.1 move.2.2)
  have key : ((applyMove board move).flatten.count v : Int) ≤ (board.flatten.count v : Int) := by
    rw [count_eq_cellSum, count_eq_cellSum]
    by_cases heq : move.1 = move.2
    · rw [cellSum_applyMove_same _ board move hwf hfrom heq,
        cellAt_applyMove_same board move hwf hfrom heq]
      have hnew : (if (if cellAt board move.1.1 move.1.2 = Cell.P ∧ move.1.1 = 0 then Cell.N
          else if cellAt board move.1.1 move.1.2 = Cell.p ∧ move.1.1 = 5 then Cell.n
          else Cell.dot) = v then (1 : Int) else 0) = 0 := by
        by_cases hp1 : cellAt board move.1.1 move.1.2 = Cell.P ∧ move.1.1 = 0
        · rw [if_pos hp1]; exact hN
        · rw [if_neg hp1]
          by_cases hp2 : cellAt board move.1.1 move.1.2 = Cell.p ∧ move.1.1 = 5
          · rw [if_pos hp2]; exact hn
          · rw [if_neg hp2]; exact hd
      simp only [hnew]
      generalize (if cellAt board move.1.1 move.1.2 = v then (1 : Int) else 0) = a at h1 ⊢
      omega
    · rw [cellSum_applyMove _ board move hwf hfrom hto heq,
        cellAt_applyMove_to board move hwf hto heq]
      have hnew : (if (if cellAt board move.1.1 move.1.2 = Cell.P ∧ move.2.1 = 0 then Cell.N
          else if cellAt board move.1.1 move.1.2 = Cell.p ∧ move.2.1 = 5 then Cell.n
          else cellAt board move.1.1 move.1.2) = v then (1 : Int) else 0) ≤
          (if cellAt board move.1.1 move.1.2 = v then (1 : Int) else 0) := by
        by_cases hp1 : cellAt board move.1.1 move.1.2 = Cell.P ∧ move.2.1 = 0
        · rw [if_pos hp1, hN]; exact h1
        · rw [if_neg hp1]
          by_cases hp2 : cellAt board move.1.1 move.1.2 = Cell.p ∧ move.2.1 = 5
          · rw [if_pos hp2, hn]; exact h1
          · rw [if_neg hp2]
      simp only [hd, add_zero]
      generalize (if (if cellAt board move.1.1 move.1.2 = Cell.P ∧ move.2.1 = 0 then Cell.N
          else if cellAt board move.1.1 move.1.2 = Cell.p ∧ move.2.1 = 5 then Cell.n
          else cellAt board move.1.1 move.1.2) = v then (1 : Int) else 0) = nw at hnew ⊢
      generalize (if cellAt board move.1.1 move.1.2 = v then (1 : Int) else 0) = a at h1 hnew ⊢
      generalize (if cellAt board move.2.1 move.2.2 = v then (1 : Int) else 0) = b at h2 ⊢
      omega
  exact_mod_cast key

/-- A sequence of moves on the grid keeps the board well formed and does not raise the
number of cells with a value `v` that is neither a knight nor the empty marker. -/
theorem count_foldl_applyMove_le (v : Cell) (hv : v ≠ Cell.N ∧ v ≠ Cell.n ∧ v ≠ Cell.dot) :
    ∀ (moves : List Move) (board : Board), WellFormed board →
      (∀ m ∈ moves, InRange m.1 ∧ InRange m.2) →
      WellFormed (moves.foldl applyMove board) ∧
        (moves.foldl applyMove board).flatten.count v ≤ board.flatten.count v := by
  intro moves
  induction moves with
  | nil =>
    intro board hwf _
    exact ⟨hwf, le_rfl⟩
  | cons move rest ih =>
    intro board hwf hall
    have hm := hall move (List.mem_cons_self _ _)
    obtain ⟨h1, h2⟩ := ih (applyMove board move) (wellFormed_applyMove board move hwf)
      (fun m hmem => hall m (List.mem_cons_of_mem _ hmem))
    exact ⟨h1, le_trans h2 (count_applyMove_le board move v hwf hm.1 hm.2 hv)⟩

/-! ## Material after a generated move -/

/-- A generated move goes between two different squares of the grid, from a piece of the
side to move to a square without such a piece, and changes the evaluation by the values
of the two cells involved. -/
theorem generated_move_facts (board : Board) (side : Bool) (m : Move) (hwf : WellFormed board)
    (hm : m ∈ generateMoves board side) :
    InRange m.1 ∧ InRange m.2 ∧ m.1 ≠ m.2 ∧
      sideOf (cellAt board m.1.1 m.1.2) = some side ∧
      sideOf (cellAt board m.2.1 m.2.2) ≠ some side ∧
      evaluate (applyMove board m) =
        evaluate board - materialValue (cellAt board m.2.1 m.2.2) -
          materialValue (cellAt board m.1.1 m.1.2) +
          materialValue (cellAt (applyMove board m) m.2.1 m.2.2) := by
  have hr := generateMoves_inRange board side m hm
  rw [mem_generateMoves_iff] at hm
  obtain ⟨-, hs, hp⟩ := hm
  have hto := (pieceMoves_sound board _ _ _ side m hp).2
  have hne : m.1 ≠ m.2 := by
    intro h
    apply hto
    rw [← h]
    exact hs
  refine ⟨hr.1, hr.2, hne, hs, hto, ?_⟩
  rw [evaluate_eq_cellSum, evaluate_eq_cellSum,
    cellSum_applyMove materialValue board m hwf hr.1 hr.2 hne]
  simp only [materialValue, add_zero]

theorem value_not_white (t : Cell) (h : sideOf t ≠ some true) :
    materialValue t ≤ 0 ∧ (materialValue t = 0 ↔ t = Cell.dot) := by
  cases t <;> simp [sideOf, materialValue] at h ⊢

theorem value_not_black (t : Cell) (h : sideOf t ≠ some false) :
    0 ≤ materialValue t ∧ (materialValue t = 0 ↔ t = Cell.dot) := by
  cases t <;> simp [sideOf, materialValue] at h ⊢

theorem white_not_black_pawn (x : Cell) (h : sideOf x = some true) : x ≠ Cell.p := by
  rintro rfl
  simp [sideOf] at h

theorem black_not_white_pawn (x : Cell) (h : sideOf x = some false) : x ≠ Cell.P := by
  rintro rfl
  simp [sideOf] at h

/-! ## Reads that can fail -/

/-- On a 6x5 board a read on the grid succeeds and yields the cell of the total lookup. -/
theorem readCell_eq (board : Board) (r c : Int) (hwf : WellFormed board)
    (hrc : InRange (r, c)) : readCell board r c = some (cellAt board r c) := by
  obtain ⟨h1, h2, h3, h4⟩ := hrc
  simp only at h1 h2 h3 h4
  obtain ⟨i, rfl⟩ := Int.eq_ofNat_of_zero_le h1
  obtain ⟨j, rfl⟩ := Int.eq_ofNat_of_zero_le h3
  have hi : i < board.length := by rw [hwf.1]; omega
  have hrow : board[i]? = some board[i] := List.getElem?_eq_getElem hi
  have hj : j < board[i].length := by
    rw [hwf.2 _ (List.getElem_mem hi)]; omega
  have hcell : board[i][j]? = some board[i][j] := List.getElem?_eq_getElem hj
  show readCell board (Int.ofNat i) (Int.ofNat j) = some (cellAt board (Int.ofNat i) (Int.ofNat j))
  unfold readCell cellAt
  simp only [hrow, hcell]

/-- On a 6x5 board a read succeeds exactly on the squares of the grid. -/
theorem readCell_ne_none_iff (board : Board) (r c : Int) (hwf : WellFormed board) :
    readCell board r c ≠ none ↔ InRange (r, c) := by
  constructor
  · intro h
    by_contra hrc
    apply h
    unfold readCell
    rcases r with i | i <;> rcases c with j | j <;> try rfl
    simp only
    cases hrow : board[i]? with
    | none => rfl
    | some row =>
      simp only
      rcases Nat.lt_or_ge j row.length with hlt | hge
      · exfalso
        apply hrc
        have hi : i < board.length := by
          rcases Nat.lt_or_ge i board.length with hlt | hge
          · exact hlt
          · rw [List.getElem?_eq_none hge] at hrow
            cases hrow
        rw [hwf.1] at hi
        rw [hwf.2 _ (List.getElem?_mem hrow)] at hlt
        refine ⟨?_, ?_, ?_, ?_⟩ <;> simp only [Int.ofNat_eq_coe] <;> omega
      · exact List.getElem?_eq_none hge
  · intro hrc
    rw [readCell_eq board r c hwf hrc]
    exact Option.some_ne_none _

theorem collect_eq {α : Type} (f : α → Option (List Move)) (g : α → List Move) :
    ∀ l : List α, (∀ a ∈ l, f a = some (g a)) → collect f l = some (l.flatMap g) := by
  intro l
  induction l with
  | nil => intro _; rfl
  | cons a rest ih =>
    intro h
    rw [collect, h a (List.mem_cons_self _ _),
      ih (fun b hb => h b (List.mem_cons_of_mem _ hb))]
    rfl

theorem rookRayChecked_eq (board : Board) (r c : Int) (w : Bool) (dr dc : Int)
    (hwf : WellFormed board) :
    ∀ (steps : Nat) (i : Int),
      rookRayChecked board r c w dr dc steps i = some (rookRay board r c w dr dc steps i) := by
  intro steps
  induction steps with
  | zero => intro i; rfl
  | succ n ih =>
    intro i
    rw [rookRayChecked, rookRay]
    by_cases hb : inBounds (r + dr * i) (c + dc * i) = true
    · have hread := readCell_eq board _ _ hwf ((inBounds_iff _ _).1 hb)
      simp only [hb, Bool.not_true, Bool.false_eq_true, if_false, hread, Option.some_bind, ih]
      split_ifs <;> rfl
    · simp only [hb, Bool.not_false, if_true]

theorem stepChecked_eq (board : Board) (r c : Int) (w : Bool) (nr nc : Int)
    (hwf : WellFormed board) :
    stepChecked board r c w nr nc =
      some (if inBounds nr nc = true then
          if (decide (cellAt board nr nc = Cell.dot) || caseDiffers (cellAt board nr nc) w) = true
          then [((r, c), (nr, nc))] else []
        else []) := by
  unfold stepChecked
  by_cases hb : inBounds nr nc = true
  · have hread := readCell_eq board _ _ hwf ((inBounds_iff _ _).1 hb)
    simp only [hb, if_true, hread, Option.some_bind]
  · simp only [hb, Bool.false_eq_true, if_false]

theorem pawnChecked_eq (board : Board) (r c : Int) (w : Bool) (nr : Int)
    (hwf : WellFormed board) (hc0 : 0 ≤ c) (hc5 : c < 5) :
    ((if (decide (0 ≤ nr) && decide (nr < 6)) = true then
        (readCell board nr c).bind (fun ahead =>
          some (if ahead = Cell.dot then [((r, c), (nr, c))] else []))
      else some []).bind (fun forward =>
    (collect (fun dc : Int =>
      if inBounds nr (c + dc) = true then
        (readCell board nr (c + dc)).bind (fun target =>
          some (if (decide (target ≠ Cell.dot) && caseDiffers target w) = true then
              [((r, c), (nr, c + dc))]
            else []))
      else some []) [-1, 1]).bind (fun captures => some (forward ++ captures)))) =
    some ((if (decide (0 ≤ nr) && decide (nr < 6) &&
          decide (cellAt board nr c = Cell.dot)) = true then [((r, c), (nr, c))] else []) ++
      ([-1, 1] : List Int).flatMap (fun dc =>
        if inBounds nr (c + dc) = true then
          if (decide (cellAt board nr (c + dc) ≠ Cell.dot) &&
              caseDiffers (cellAt board nr (c + dc)) w) = true
          then [((r, c), (nr, c + dc))]
          else []
        else [])) := by
  have hfwd : (if (decide (0 ≤ nr) && decide (nr < 6)) = true then
        (readCell board nr c).bind (fun ahead =>
          some (if ahead = Cell.dot then [((r, c), (nr, c))] else []))
      else some []) =
      some (if (decide (0 ≤ nr) && decide (nr < 6) &&
          decide (cellAt board nr c = Cell.dot)) = true then [((r, c), (nr, c))] else []) := by
    by_cases hb : (decide (0 ≤ nr) && decide (nr < 6)) = true
    · have hb2 := hb
      simp only [Bool.and_eq_true, decide_eq_true_eq] at hb2
      have hread := readCell_eq board nr c hwf ⟨hb2.1, hb2.2, hc0, hc5⟩
      simp only [hb, if_true, hread, Option.some_bind, Bool.true_and, decide_eq_true_eq]
    · simp only [hb, Bool.false_eq_true, if_false, Bool.false_and]
  have hcap : collect (fun dc : Int =>
        if inBounds nr (c + dc) = true then
          (readCell board nr (c + dc)).bind (fun target =>
            some (if (decide (target ≠ Cell.dot) && caseDiffers target w) = true then
                [((r, c), (nr, c + dc))]
              else []))
        else some []) [-1, 1] =
      some (([-1, 1] : List Int).flatMap (fun dc =>
        if inBounds nr (c + dc) = true then
          if (decide (cellAt board nr (c + dc) ≠ Cell.dot) &&
              caseDiffers (cellAt board nr (c + dc)) w) = true
          then [((r, c), (nr, c + dc))]
          else []
        else [])) := by
    apply collect_eq
    intro dc _
    by_cases hb : inBounds nr (c + dc) = true
    · have hread := readCell_eq board _ _ hwf ((inBounds_iff _ _).1 hb)
      simp only [hb, if_true, hread, Option.some_bind]
    · simp only [hb, Bool.false_eq_true, if_false]
  rw [hfwd, hcap]
  rfl

/-- On a 6x5 board the moves of a piece on the grid are computed without a failing read. -/
theorem pieceMovesChecked_eq (board : Board) (r c : Int) (piece : Cell) (w : Bool)
    (hwf : WellFormed board) (hrc : InRange (r, c)) :
    pieceMovesChecked board r c piece w = some (pieceMoves board r c piece w) := by
  unfold pieceMovesChecked pieceMoves
  obtain ⟨hr0, hr6, hc0, hc5⟩ := hrc
  simp only at hr0 hr6 hc0 hc5
  by_cases hP : toUpperCase piece = Cell.P
  · rw [if_pos hP, if_pos hP]
    exact pawnChecked_eq board r c w _ hwf hc0 hc5
  · rw [if_neg hP, if_neg hP]
    by_cases hR : toUpperCase piece = Cell.R
    · rw [if_pos hR, if_pos hR]
      exact collect_eq _ _ _
        (fun (d : Int × Int) _ => rookRayChecked_eq board r c w d.1 d.2 hwf 5 1)
    · rw [if_neg hR, if_neg hR]
      by_cases hN : toUpperCase piece = Cell.N
      · rw [if_pos hN, if_pos hN]
        exact collect_eq _ _ _
          (fun (d : Int × Int) _ => stepChecked_eq board r c w _ _ hwf)
      · rw [if_neg hN, if_neg hN]
        by_cases hK : toUpperCase piece = Cell.K
        · rw [if_pos hK, if_pos hK]
          apply collect_eq
          intro dr _
          apply collect_eq
          intro dc _
          by_cases h0 : (decide (dr = 0) && decide (dc = 0)) = true
          · rw [if_pos h0, if_pos h0]
          · rw [if_neg h0, if_neg h0]
            exact stepChecked_eq board r c w _ _ hwf
        · rw [if_neg hK, if_neg hK]

/-- On a 6x5 board the generator runs without a failing read and yields the list of
`generateMoves`. -/
theorem generateMovesChecked_eq (board : Board) (w : Bool) (hwf : WellFormed board) :
    generateMovesChecked board w = some (generateMoves board w) := by
  unfold generateMovesChecked generateMoves
  apply collect_eq
  intro r hr
  apply collect_eq
  intro c hc
  have hrc : InRange (r, c) :=
    ⟨((mem_rows_iff r).1 hr).1, ((mem_rows_iff r).1 hr).2, ((mem_cols_iff c).1 hc).1,
      ((mem_cols_iff c).1 hc).2⟩
  rw [readCell_eq board r c hwf hrc]
  simp only [Option.some_bind, pieceMovesChecked_eq board r c _ _ hwf hrc]
  split_ifs <;> rfl

/-! ## Pruning: the loops -/

theorem failSoft_self (v a b : Score) : FailSoft v v a b :=
  ⟨fun _ _ => rfl, fun _ => le_rfl, fun _ => le_rfl⟩

theorem failSoft_full {v t : Score} (h : FailSoft v t ⊥ ⊤) : v = t := by
  obtain ⟨h1, h2, h3⟩ := h
  by_cases hb : v = ⊥
  · have := h2 (by rw [hb])
    rw [hb] at this ⊢
    exact (le_bot_iff.1 this).symm
  · by_cases ht : v = ⊤
    · have := h3 (by rw [ht])
      rw [ht] at this ⊢
      exact (top_le_iff.1 this).symm
    · exact h1 (bot_lt_iff_ne_bot.2 hb) (lt_top_iff_ne_top.2 ht)

theorem update_max (e m : Score) : (if e > m then e else m) = max m e := by
  by_cases h : e > m
  · rw [if_pos h, max_eq_right (le_of_lt h)]
  · rw [if_neg h, max_eq_left (not_lt.1 h)]

theorem update_min (e m : Score) : (if e < m then e else m) = min m e := by
  by_cases h : e < m
  · rw [if_pos h, min_eq_right (le_of_lt h)]
  · rw [if_neg h, min_eq_left (not_lt.1 h)]

theorem le_foldl_max {α : Type} (f : α → Score) (l : List α) (t : Score) :
    t ≤ l.foldl (fun best x => max best (f x)) t := by
  induction l generalizing t with
  | nil => exact le_rfl
  | cons x rest ih => exact le_trans (le_max_left _ _) (ih _)

theorem foldl_min_le {α : Type} (f : α → Score) (l : List α) (t : Score) :
    l.foldl (fun best x => min best (f x)) t ≤ t := by
  induction l generalizing t with
  | nil => exact le_rfl
  | cons x rest ih => exact le_trans (ih _) (min_le_left _ _)

theorem maxLoop_cons (search : Board → Score → Score → Result) (board : Board) (beta : Score)
    (move : Move) (rest : List Move) (alpha maxEval : Score) (bestMove : Option Move) :
    maxLoop search board beta (move :: rest) alpha maxEval bestMove =
      if beta ≤ max alpha (search (applyMove board move) alpha beta).1 then
        (max maxEval (search (applyMove board move) alpha beta).1,
          if (search (applyMove board move) alpha beta).1 > maxEval then some move else bestMove)
      else
        maxLoop search board beta rest (max alpha (search (applyMove board move) alpha beta).1)
          (max maxEval (search (applyMove board move) alpha beta).1)
          (if (search (applyMove board move) alpha beta).1 > maxEval then some move
            else bestMove) := by
  rw [maxLoop]
  simp only [update_max]

theorem minLoop_cons (search : Board → Score → Score → Result) (board : Board) (alpha : Score)
    (move : Move) (rest : List Move) (beta minEval : Score) (bestMove : Option Move) :
    minLoop search board alpha (move :: rest) beta minEval bestMove =
      if min beta (search (applyMove board move) alpha beta).1 ≤ alpha then
        (min minEval (search (applyMove board move) alpha beta).1,
          if (search (applyMove board move) alpha beta).1 < minEval then some move else bestMove)
      else
        minLoop search board alpha rest (min beta (search (applyMove board move) alpha beta).1)
          (min minEval (search (applyMove board move) alpha beta).1)
          (if (search (applyMove board move) alpha beta).1 < minEval then some move
            else bestMove) := by
  rw [minLoop]
  simp only [update_min]

/-- The maximizing loop keeps the fail-soft relation: `t` is the exact maximum of the moves
seen so far, `maxEval` the running value, and `alpha` the entry bound raised to
`maxEval`. -/
theorem maxLoop_failSoft (search : Board → Score → Score → Result) (tv : Board → Score)
    (board : Board) (alpha0 beta : Score)
    (hsearch : ∀ b a, a < beta → FailSoft (search b a beta).1 (tv b) a beta) :
    ∀ (moves : List Move) (alpha maxEval : Score) (bestMove : Option Move) (t : Score),
      alpha = max alpha0 maxEval → alpha < beta → t ≤ maxEval → (alpha0 < maxEval → maxEval ≤ t) →
      FailSoft (maxLoop search board beta moves alpha maxEval bestMove).1
        (moves.foldl (fun best move => max best (tv (applyMove board move))) t) alpha0 beta := by
  intro moves
  induction moves with
  | nil =>
    intro alpha maxEval bestMove t ha hab ht hexact
    have hm : maxEval < beta := lt_of_le_of_lt (by rw [ha]; exact le_max_right _ _) hab
    simp only [maxLoop, List.foldl_nil]
    exact ⟨fun h1 _ => le_antisymm (hexact h1) ht, fun _ => ht, fun h => absurd hm (not_lt.2 h)⟩
  | cons move rest ih =>
    intro alpha maxEval bestMove t ha hab ht hexact
    have hm : maxEval ≤ alpha := by rw [ha]; exact le_max_right _ _
    have h0 : alpha0 ≤ alpha := by rw [ha]; exact le_max_left _ _
    obtain ⟨hs1, hs2, hs3⟩ := hsearch (applyMove board move) alpha hab
    rw [maxLoop_cons, List.foldl_cons]
    generalize (search (applyMove board move) alpha beta).1 = e at hs1 hs2 hs3 ⊢
    generalize tv (applyMove board move) = tm at hs1 hs2 hs3 ⊢
    by_cases hprune : beta ≤ max alpha e
    · rw [if_pos hprune]
      have hbe : beta ≤ e := by
        rcases le_max_iff.1 hprune with h | h
        · exact absurd hab (not_lt.2 h)
        · exact h
      have hme : max maxEval e = e := max_eq_right (le_trans hm (le_of_lt (lt_of_lt_of_le hab hbe)))
      simp only [hme]
      refine ⟨fun _ h => absurd h (not_lt.2 hbe), fun h => ?_, fun _ => ?_⟩
      · exact absurd (lt_of_le_of_lt h0 (lt_of_lt_of_le hab hbe)) (not_lt.2 h)
      · exact le_trans (hs3 hbe) (le_trans (le_max_right _ _) (le_foldl_max _ _ _))
    · rw [if_neg hprune]
      have hlt : max alpha e < beta := not_le.1 hprune
      have heb : e < beta := lt_of_le_of_lt (le_max_right _ _) hlt
      have htm : tm ≤ max maxEval e := by
        by_cases hae : alpha < e
        · rw [← hs1 hae heb]; exact le_max_right _ _
        · exact le_trans (hs2 (not_lt.1 hae)) (le_max_right _ _)
      apply ih (max alpha e) (max maxEval e) _ (max t tm)
      · rw [ha, max_assoc]
      · exact hlt
      · exact max_le (le_trans ht (le_max_left _ _)) htm
      · intro h
        by_cases hem : e ≤ maxEval
        · rw [max_eq_left hem] at h ⊢
          exact le_trans (hexact h) (le_max_left _ _)
        · have hme : maxEval < e := not_le.1 hem
          rw [max_eq_right (le_of_lt hme)] at h ⊢
          have hae : alpha < e := by rw [ha]; exact max_lt h hme
          rw [hs1 hae heb]
          exact le_max_right _ _

/-- The minimizing loop keeps the fail-soft relation, with the roles of the bounds
exchanged. -/
theorem minLoop_failSoft (search : Board → Score → Score → Result) (tv : Board → Score)
    (board : Board) (alpha beta0 : Score)
    (hsearch : ∀ b be, alpha < be → FailSoft (search b alpha be).1 (tv b) alpha be) :
    ∀ (moves : List Move) (beta minEval : Score) (bestMove : Option Move) (t : Score),
      beta = min beta0 minEval → alpha < beta → minEval ≤ t → (minEval < beta0 → t ≤ minEval) →
      FailSoft (minLoop search board alpha moves beta minEval bestMove).1
        (moves.foldl (fun best move => min best (tv (applyMove board move))) t) alpha beta0 := by
  intro moves
  induction moves with
  | nil =>
    intro beta minEval bestMove t hb hab ht hexact
    have hm : alpha < minEval := lt_of_lt_of_le hab (by rw [hb]; exact min_le_right _ _)
    simp only [minLoop, List.foldl_nil]
    exact ⟨fun _ h2 => le_antisymm ht (hexact h2), fun h => absurd hm (not_lt.2 h), fun _ => ht⟩
  | cons move rest ih =>
    intro beta minEval bestMove t hb hab ht hexact
    have hm : beta ≤ minEval := by rw [hb]; exact min_le_right _ _
    have h0 : beta ≤ beta0 := by rw [hb]; exact min_le_left _ _
    obtain ⟨hs1, hs2, hs3⟩ := hsearch (applyMove board move) beta hab
    rw [minLoop_cons, List.foldl_cons]
    generalize (search (applyMove board move) alpha beta).1 = e at hs1 hs2 hs3 ⊢
    generalize tv (applyMove board move) = tm at hs1 hs2 hs3 ⊢
    by_cases hprune : min beta e ≤ alpha
    · rw [if_pos hprune]
      have hea : e ≤ alpha := by
        rcases min_le_iff.1 hprune with h | h
        · exact absurd hab (not_lt.2 h)
        · exact h
      have hme : min minEval e = e := min_eq_right (le_trans (le_of_lt (lt_of_le_of_lt hea hab)) hm)
      simp only [hme]
      refine ⟨fun h _ => absurd h (not_lt.2 hea), fun _ => ?_, fun h => ?_⟩
      · exact le_trans (le_trans (foldl_min_le _ _ _) (min_le_right _ _)) (hs2 hea)
      · exact absurd (lt_of_lt_of_le (lt_of_le_of_lt hea hab) h0) (not_lt.2 h)
    · rw [if_neg hprune]
      have hlt : alpha < min beta e := not_le.1 hprune
      have hae : alpha < e := lt_of_lt_of_le hlt (min_le_right _ _)
      have htm : min minEval e ≤ tm := by
        by_cases heb : e < beta
        · rw [← hs1 hae heb]; exact min_le_right _ _
        · exact le_trans (min_le_right _ _) (hs3 (not_lt.1 heb))
      apply ih (min beta e) (min minEval e) _ (min t tm)
      · rw [hb, min_assoc]
      · exact hlt
      · exact le_min (le_trans (min_le_left _ _) ht) htm
      · intro h
        by_cases hem : minEval ≤ e
        · rw [min_eq_left hem] at h ⊢
          exact le_trans (min_le_left _ _) (hexact h)
        · have hme : e < minEval := not_le.1 hem
          rw [min_eq_right (le_of_lt hme)] at h ⊢
          have heb : e < beta := by rw [hb]; exact lt_min h hme
          rw [hs1 hae heb]
          exact min_le_right _ _

/-! ## Pruning: the search -/

theorem exhaustive_zero (board : Board) (maximizing : Bool) :
    exhaustive 0 board maximizing =
      if !(board.flatten.contains Cell.K) then fin (-9999)
      else if !(board.flatten.contains Cell.k) then fin 9999
      else fin (evaluate board) := by
  rw [exhaustive]

theorem exhaustive_succ (d : Nat) (board : Board) (maximizing : Bool) :
    exhaustive (d + 1) board maximizing =
      if !(board.flatten.contains Cell.K) then fin (-9999)
      else if !(board.flatten.contains Cell.k) then fin 9999
      else if (generateMoves board maximizing).length = 0 then fin (evaluate board)
      else if maximizing then
        (generateMoves board maximizing).foldl
          (fun best move => max best (exhaustive d (applyMove board move) false)) ⊥
      else
        (generateMoves board maximizing).foldl
          (fun best move => min best (exhaustive d (applyMove board move) true)) ⊤ := by
  rw [exhaustive]

/-- For every window with `alpha < beta` the score of the pruned search is in the
fail-soft relation with the score of the exhaustive search. -/
theorem minimax_failSoft (depth : Nat) :
    ∀ (board : Board) (alpha beta : Score) (maximizing : Bool), alpha < beta →
      FailSoft (minimax depth board alpha beta maximizing).1 (exhaustive depth board maximizing)
        alpha beta := by
  induction depth with
  | zero =>
    intro board alpha beta maximizing _
    rw [minimax_zero, exhaustive_zero]
    split_ifs <;> exact failSoft_self _ _ _
  | succ d ih =>
    intro board alpha beta maximizing hab
    rw [minimax_succ, exhaustive_succ]
    split_ifs with h1 h2 h3 h4
    · exact failSoft_self _ _ _
    · exact failSoft_self _ _ _
    · exact failSoft_self _ _ _
    · apply maxLoop_failSoft (fun b a be => minimax d b a be false)
        (fun b => exhaustive d b false) board alpha beta
        (fun b a ha => ih b a beta false ha)
      · exact (max_eq_left bot_le).symm
      · exact hab
      · exact le_rfl
      · intro h
        exact absurd h (not_lt.2 bot_le)
    · apply minLoop_failSoft (fun b a be => minimax d b a be true)
        (fun b => exhaustive d b true) board alpha beta
        (fun b be hbe => ih b alpha be true hbe)
      · exact (min_eq_left le_top).symm
      · exact hab
      · exact le_rfl
      · intro h
        exact absurd h (not_lt.2 le_top)

/-! ## Finite scores and the move that is returned -/

theorem bot_lt_fin (n : Int) : (⊥ : Score) < fin n := WithBot.bot_lt_coe _

theorem fin_lt_top (n : Int) : fin n < (⊤ : Score) :=
  WithBot.coe_lt_coe.2 (WithTop.coe_lt_top n)

theorem max_fin (a b : Int) : max (fin a) (fin b) = fin (max a b) := by
  rcases le_total a b with h | h
  · rw [max_eq_right h, max_eq_right]
    exact WithBot.coe_le_coe.2 (WithTop.coe_le_coe.2 h)
  · rw [max_eq_left h, max_eq_left]
    exact WithBot.coe_le_coe.2 (WithTop.coe_le_coe.2 h)

theorem min_fin (a b : Int) : min (fin a) (fin b) = fin (min a b) := by
  rcases le_total a b with h | h
  · rw [min_eq_left h, min_eq_left]
    exact WithBot.coe_le_coe.2 (WithTop.coe_le_coe.2 h)
  · rw [min_eq_right h, min_eq_right]
    exact WithBot.coe_le_coe.2 (WithTop.coe_le_coe.2 h)

/-- The maximizing loop returns a finite score when the running value is finite, or when
it is still `-Infinity` and a move remains. -/
theorem maxLoop_fin (search : Board → Score → Score → Result) (board : Board) (beta : Score)
    (hs : ∀ b a be, ∃ n, (search b a be).1 = fin n) :
    ∀ (moves : List Move) (alpha maxEval : Score) (bestMove : Option Move),
      ((∃ n, maxEval = fin n) ∨ (maxEval = ⊥ ∧ moves ≠ [])) →
      ∃ n, (maxLoop search board beta moves alpha maxEval bestMove).1 = fin n := by
  intro moves
  induction moves with
  | nil =>
    intro alpha maxEval bestMove h
    rcases h with ⟨n, hn⟩ | ⟨-, h⟩
    · exact ⟨n, by simp only [maxLoop]; exact hn⟩
    · exact absurd rfl h
  | cons move rest ih =>
    intro alpha maxEval bestMove h
    obtain ⟨e, he⟩ := hs (applyMove board move) alpha beta
    have hm : ∃ n, max maxEval (search (applyMove board move) alpha beta).1 = fin n := by
      rw [he]
      rcases h with ⟨n, hn⟩ | ⟨hb, -⟩
      · exact ⟨max n e, by rw [hn, max_fin]⟩
      · exact ⟨e, by rw [hb]; exact max_eq_right bot_le⟩
    rw [maxLoop_cons]
    by_cases hprune : beta ≤ max alpha (search (applyMove board move) alpha beta).1
    · rw [if_pos hprune]
      exact hm
    · rw [if_neg hprune]
      exact ih _ _ _ (Or.inl hm)

/-- The minimizing loop returns a finite score when the running value is finite, or when
it is still `Infinity` and a move remains. -/
theorem minLoop_fin (search : Board → Score → Score → Result) (board : Board) (alpha : Score)
    (hs : ∀ b a be, ∃ n, (search b a be).1 = fin n) :
    ∀ (moves : List Move) (beta minEval : Score) (bestMove : Option Move),
      ((∃ n, minEval = fin n) ∨ (minEval = ⊤ ∧ moves ≠ [])) →
      ∃ n, (minLoop search board alpha moves beta minEval bestMove).1 = fin n := by
  intro moves
  induction moves with
  | nil =>
    intro beta minEval bestMove h
    rcases h with ⟨n, hn⟩ | ⟨-, h⟩
    · exact ⟨n, by simp only [minLoop]; exact hn⟩
    · exact absurd rfl h
  | cons move rest ih =>
    intro beta minEval bestMove h
    obtain ⟨e, he⟩ := hs (applyMove board move) alpha beta
    have hm : ∃ n, min minEval (search (applyMove board move) alpha beta).1 = fin n := by
      rw [he]
      rcases h with ⟨n, hn⟩ | ⟨hb, -⟩
      · exact ⟨min n e, by rw [hn, min_fin]⟩
      · exact ⟨e, by rw [hb]; exact min_eq_right le_top⟩
    rw [minLoop_cons]
    by_cases hprune : min beta (search (applyMove board move) alpha beta).1 ≤ alpha
    · rw [if_pos hprune]
      exact hm
    · rw [if_neg hprune]
      exact ih _ _ _ (Or.inl hm)

/-- The search returns a finite score for every window. -/
theorem minimax_fin (depth : Nat) :
    ∀ (board : Board) (alpha beta : Score) (maximizing : Bool),
      ∃ n, (minimax depth board alpha beta maximizing).1 = fin n := by
  induction depth with
  | zero =>
    intro board alpha beta maximizing
    rw [minimax_zero]
    split_ifs
    · exact ⟨_, rfl⟩
    · exact ⟨_, rfl⟩
    · exact ⟨_, rfl⟩
  | succ d ih =>
    intro board alpha beta maximizing
    rw [minimax_succ]
    split_ifs with h1 h2 h3 h4
    · exact ⟨_, rfl⟩
    · exact ⟨_, rfl⟩
    · exact ⟨_, rfl⟩
    · apply maxLoop_fin _ _ _ (fun b a be => ih b a be false)
      right
      refine ⟨rfl, ?_⟩
      intro hnil
      rw [hnil] at h3
      exact h3 rfl
    · apply minLoop_fin _ _ _ (fun b a be => ih b a be true)
      right
      refine ⟨rfl, ?_⟩
      intro hnil
      rw [hnil] at h3
      exact h3 rfl

/-- With `beta = Infinity` the maximizing loop never stops early: the score does not fall
below the running value `m`, the move is kept when the score stays at `m`, and otherwise
the move is the first remaining one whose exact value equals the score. -/
theorem maxLoop_top_best (search : Board → Score → Score → Result) (tv : Board → Score)
    (board : Board) (hfin : ∀ b a, (search b a ⊤).1 < ⊤)
    (hsearch : ∀ b a, a < ⊤ → FailSoft (search b a ⊤).1 (tv b) a ⊤) :
    ∀ (moves : List Move) (m : Score) (bestMove : Option Move), m < ⊤ →
      m ≤ (maxLoop search board ⊤ moves m m bestMove).1 ∧
      ((maxLoop search board ⊤ moves m m bestMove).1 = m →
        (maxLoop search board ⊤ moves m m bestMove).2 = bestMove) ∧
      (m < (maxLoop search board ⊤ moves m m bestMove).1 →
        ∃ best, (maxLoop search board ⊤ moves m m bestMove).2 = some best ∧
          moves.find? (fun move => decide (tv (applyMove board move) =
            (maxLoop search board ⊤ moves m m bestMove).1)) = some best) := by
  intro moves
  induction moves with
  | nil =>
    intro m bestMove _
    exact ⟨le_rfl, fun _ => rfl, fun h => absurd h (lt_irrefl _)⟩
  | cons move rest ih =>
    intro m bestMove hm
    obtain ⟨hs1, hs2, -⟩ := hsearch (applyMove board move) m hm
    have he := hfin (applyMove board move) m
    rw [maxLoop_cons]
    generalize (search (applyMove board move) m ⊤).1 = e at hs1 hs2 he ⊢
    rw [if_neg (not_le.2 (max_lt hm he))]
    by_cases hgt : e > m
    · have hme : max m e = e := max_eq_right (le_of_lt hgt)
      rw [hme, if_pos hgt]
      obtain ⟨i1, i2, i3⟩ := ih e (some move) he
      have htv : tv (applyMove board move) = e := (hs1 hgt he).symm
      refine ⟨le_trans (le_of_lt hgt) i1, fun h => ?_, fun _ => ?_⟩
      · exact absurd (lt_of_lt_of_le hgt i1) (by rw [h]; exact lt_irrefl _)
      · rcases eq_or_lt_of_le i1 with heq | hlt
        · refine ⟨move, i2 heq.symm, ?_⟩
          rw [List.find?_cons, ← heq, htv]
          simp
        · obtain ⟨best, hb1, hb2⟩ := i3 hlt
          refine ⟨best, hb1, ?_⟩
          rw [List.find?_cons, htv]
          have : decide (e = (maxLoop search board ⊤ rest e e (some move)).1) = false :=
            decide_eq_false (ne_of_lt hlt)
          rw [this]
          exact hb2
    · have hle : e ≤ m := not_lt.1 hgt
      have hme : max m e = m := max_eq_left hle
      rw [hme, if_neg hgt]
      obtain ⟨i1, i2, i3⟩ := ih m bestMove hm
      refine ⟨i1, i2, fun hlt => ?_⟩
      obtain ⟨best, hb1, hb2⟩ := i3 hlt
      refine ⟨best, hb1, ?_⟩
      rw [List.find?_cons]
      have : decide (tv (applyMove board move) =
          (maxLoop search board ⊤ rest m m bestMove).1) = false :=
        decide_eq_false (ne_of_lt (lt_of_le_of_lt (le_trans (hs2 hle) hle) hlt))
      rw [this]
      exact hb2

/-- With `alpha = -Infinity` the minimizing loop never stops early: the score does not
rise above the running value `m`, the move is kept when the score stays at `m`, and
otherwise the move is the first remaining one whose exact value equals the score. -/
theorem minLoop_bot_best (search : Board → Score → Score → Result) (tv : Board → Score)
    (board : Board) (hfin : ∀ b be, ⊥ < (search b ⊥ be).1)
    (hsearch : ∀ b be, ⊥ < be → FailSoft (search b ⊥ be).1 (tv b) ⊥ be) :
    ∀ (moves : List Move) (m : Score) (bestMove : Option Move), ⊥ < m →
      (minLoop search board ⊥ moves m m bestMove).1 ≤ m ∧
      ((minLoop search board ⊥ moves m m bestMove).1 = m →
        (minLoop search board ⊥ moves m m bestMove).2 = bestMove) ∧
      ((minLoop search board ⊥ moves m m bestMove).1 < m →
        ∃ best, (minLoop search board ⊥ moves m m bestMove).2 = some best ∧
          moves.find? (fun move => decide (tv (applyMove board move) =
            (minLoop search board ⊥ moves m m bestMove).1)) = some best) := by
  intro moves
  induction moves with
  | nil =>
    intro m bestMove _
    exact ⟨le_rfl, fun _ => rfl, fun h => absurd h (lt_irrefl _)⟩
  | cons move rest ih =>
    intro m bestMove hm
    obtain ⟨hs1, -, hs3⟩ := hsearch (applyMove board move) m hm
    have he := hfin (applyMove board move) m
    rw [minLoop_cons]
    generalize (search (applyMove board move) ⊥ m).1 = e at hs1 hs3 he ⊢
    rw [if_neg (not_le.2 (lt_min hm he))]
    by_cases hlt : e < m
    · have hme : min m e = e := min_eq_right (le_of_lt hlt)
      rw [hme, if_pos hlt]
      obtain ⟨i1, i2, i3⟩ := ih e (some move) he
      have htv : tv (applyMove board move) = e := (hs1 he hlt).symm
      refine ⟨le_trans i1 (le_of_lt hlt), fun h => ?_, fun _ => ?_⟩
      · exact absurd (lt_of_le_of_lt i1 hlt) (by rw [h]; exact lt_irrefl _)
      · rcases eq_or_lt_of_le i1 with heq | hlt2
        · refine ⟨move, i2 heq, ?_⟩
          rw [List.find?_cons, heq, htv]
          simp
        · obtain ⟨best, hb1, hb2⟩ := i3 hlt2
          refine ⟨best, hb1, ?_⟩
          rw [List.find?_cons, htv]
          have : decide (e = (minLoop search board ⊥ rest e e (some move)).1) = false :=
            decide_eq_false (ne_of_gt hlt2)
          rw [this]
          exact hb2
    · have hle : m ≤ e := not_lt.1 hlt
      have hme : min m e = m := min_eq_left hle
      rw [hme, if_neg hlt]
      obtain ⟨i1, i2, i3⟩ := ih m bestMove hm
      refine ⟨i1, i2, fun hlt2 => ?_⟩
      obtain ⟨best, hb1, hb2⟩ := i3 hlt2
      refine ⟨best, hb1, ?_⟩
      rw [List.find?_cons]
      have : decide (tv (applyMove board move) =
          (minLoop search board ⊥ rest m m bestMove).1) = false :=
        decide_eq_false (ne_of_gt (lt_of_lt_of_le hlt2 (le_trans hle (hs3 hle))))
      rw [this]
      exact hb2

/-! ## The move returned by the loops -/

/-- The move returned by the maximizing loop is the move it started with or one of the
moves it went through; it is one of these moves when the loop starts from `-Infinity`
with a move to go through. -/
theorem maxLoop_move (search : Board → Score → Score → Result) (board : Board) (beta : Score)
    (hs : ∀ b a be, ⊥ < (search b a be).1) :
    ∀ (moves : List Move) (alpha maxEval : Score) (bestMove : Option Move),
      ((maxLoop search board beta moves alpha maxEval bestMove).2 = bestMove ∨
        ∃ m ∈ moves, (maxLoop search board beta moves alpha maxEval bestMove).2 = some m) ∧
      (maxEval = ⊥ → moves ≠ [] →
        ∃ m ∈ moves, (maxLoop search board beta moves alpha maxEval bestMove).2 = some m) := by
  intro moves
  induction moves with
  | nil =>
    intro alpha maxEval bestMove
    exact ⟨Or.inl rfl, fun _ h => absurd rfl h⟩
  | cons move rest ih =>
    intro alpha maxEval bestMove
    have he := hs (applyMove board move) alpha beta
    rw [maxLoop_cons]
    generalize (search (applyMove board move) alpha beta).1 = e at he ⊢
    have hstep : ∀ best1 : Option Move,
        best1 = (if e > maxEval then some move else bestMove) →
        (best1 = bestMove ∨ best1 = some move) ∧ (maxEval = ⊥ → best1 = some move) := by
      intro best1 hb
      by_cases hgt : e > maxEval
      · rw [if_pos hgt] at hb
        exact ⟨Or.inr hb, fun _ => hb⟩
      · rw [if_neg hgt] at hb
        refine ⟨Or.inl hb, fun h => ?_⟩
        rw [h] at hgt
        exact absurd he hgt
    obtain ⟨h1, h2⟩ := hstep _ rfl
    by_cases hprune : beta ≤ max alpha e
    · rw [if_pos hprune]
      refine ⟨?_, fun hbot _ => ⟨move, List.mem_cons_self _ _, h2 hbot⟩⟩
      rcases h1 with h | h
      · exact Or.inl h
      · exact Or.inr ⟨move, List.mem_cons_self _ _, h⟩
    · rw [if_neg hprune]
      obtain ⟨i1, -⟩ := ih (max alpha e) (max maxEval e) (if e > maxEval then some move else bestMove)
      have hall : (maxLoop search board beta rest (max alpha e) (max maxEval e)
            (if e > maxEval then some move else bestMove)).2 = bestMove ∨
          ∃ m ∈ move :: rest, (maxLoop search board beta rest (max alpha e) (max maxEval e)
            (if e > maxEval then some move else bestMove)).2 = some m := by
        rcases i1 with h | ⟨m, hm, h⟩
        · rcases h1 with h3 | h3
          · exact Or.inl (h.trans h3)
          · exact Or.inr ⟨move, List.mem_cons_self _ _, h.trans h3⟩
        · exact Or.inr ⟨m, List.mem_cons_of_mem _ hm, h⟩
      refine ⟨hall, fun hbot _ => ?_⟩
      rcases i1 with h | ⟨m, hm, h⟩
      · exact ⟨move, List.mem_cons_self _ _, h.trans (h2 hbot)⟩
      · exact ⟨m, List.mem_cons_of_mem _ hm, h⟩

/-- The move returned by the minimizing loop is the move it started with or one of the
moves it went through; it is one of these moves when the loop starts from `Infinity` with
a move to go through. -/
theorem minLoop_move (search : Board → Score → Score → Result) (board : Board) (alpha : Score)
    (hs : ∀ b a be, (search b a be).1 < ⊤) :
    ∀ (moves : List Move) (beta minEval : Score) (bestMove : Option Move),
      ((minLoop search board alpha moves beta minEval bestMove).2 = bestMove ∨
        ∃ m ∈ moves, (minLoop search board alpha moves beta minEval bestMove).2 = some m) ∧
      (minEval = ⊤ → moves ≠ [] →
        ∃ m ∈ moves, (minLoop search board alpha moves beta minEval bestMove).2 = some m) := by
  intro moves
  induction moves with
  | nil =>
    intro beta minEval bestMove
    exact ⟨Or.inl rfl, fun _ h => absurd rfl h⟩
  | cons move rest ih =>
    intro beta minEval bestMove
    have he := hs (applyMove board move) alpha beta
    rw [minLoop_cons]
    generalize (search (applyMove board move) alpha beta).1 = e at he ⊢
    have hstep : ∀ best1 : Option Move,
        best1 = (if e < minEval then some move else bestMove) →
        (best1 = bestMove ∨ best1 = some move) ∧ (minEval = ⊤ → best1 = some move) := by
      intro best1 hb
      by_cases hlt : e < minEval
      · rw [if_pos hlt] at hb
        exact ⟨Or.inr hb, fun _ => hb⟩
      · rw [if_neg hlt] at hb
        refine ⟨Or.inl hb, fun h => ?_⟩
        rw [h] at hlt
        exact absurd he hlt
    obtain ⟨h1, h2⟩ := hstep _ rfl
    by_cases hprune : min beta e ≤ alpha
    · rw [if_pos hprune]
      refine ⟨?_, fun htop _ => ⟨move, List.mem_cons_self _ _, h2 htop⟩⟩
      rcases h1 with h | h
      · exact Or.inl h
      · exact Or.inr ⟨move, List.mem_cons_self _ _, h⟩
    · rw [if_neg hprune]
      obtain ⟨i1, -⟩ := ih (min beta e) (min minEval e) (if e < minEval then some move else bestMove)
      have hall : (minLoop search board alpha rest (min beta e) (min minEval e)
            (if e < minEval then some move else bestMove)).2 = bestMove ∨
          ∃ m ∈ move :: rest, (minLoop search board alpha rest (min beta e) (min minEval e)
            (if e < minEval then some move else bestMove)).2 = some m := by
        rcases i1 with h | ⟨m, hm, h⟩
        · rcases h1 with h3 | h3
          · exact Or.inl (h.trans h3)
          · exact Or.inr ⟨move, List.mem_cons_self _ _, h.trans h3⟩
        · exact Or.inr ⟨m, List.mem_cons_of_mem _ hm, h⟩
      refine ⟨hall, fun htop _ => ?_⟩
      rcases i1 with h | ⟨m, hm, h⟩
      · exact ⟨move, List.mem_cons_self _ _, h.trans (h2 htop)⟩
      · exact ⟨m, List.mem_cons_of_mem _ hm, h⟩

/-! ## Bounds on the scores -/

theorem fin_le_fin (a b : Int) : fin a ≤ fin b ↔ a ≤ b := by
  unfold fin
  exact WithBot.coe_le_coe.trans WithTop.coe_le_coe

theorem sum_value_bounds (l : List Cell) :
    (l.map materialValue).sum ≤ 5 * (l.length : Int) + 995 * (l.count Cell.K : Int) ∧
      -(5 * (l.length : Int)) - 995 * (l.count Cell.k : Int) ≤ (l.map materialValue).sum := by
  induction l with
  | nil => simp
  | cons a rest ih =>
    obtain ⟨h1, h2⟩ := ih
    simp only [List.map_cons, List.sum_cons, List.length_cons, List.count_cons, Nat.cast_add,
      Nat.cast_one]
    cases a <;> simp [materialValue] <;> constructor <;> omega

theorem length_flatten_wellFormed (board : Board) (hwf : WellFormed board) :
    board.flatten.length = 30 := by
  rw [board_eq_table board hwf]
  rfl

/-- The evaluation of a 6x5 board with at most one king of each colour lies between -9999
and 9999. -/
theorem evaluate_bounds (board : Board) (hwf : WellFormed board)
    (hK : board.flatten.count Cell.K ≤ 1) (hk : board.flatten.count Cell.k ≤ 1) :
    -9999 ≤ evaluate board ∧ evaluate board ≤ 9999 := by
  rw [evaluate_eq_cellSum]
  unfold cellSum
  obtain ⟨h1, h2⟩ := sum_value_bounds board.flatten
  rw [length_flatten_wellFormed board hwf] at h1 h2
  have hK2 : (board.flatten.count Cell.K : Int) ≤ 1 := by exact_mod_cast hK
  have hk2 : (board.flatten.count Cell.k : Int) ≤ 1 := by exact_mod_cast hk
  constructor <;> push_cast at h1 h2 <;> omega

theorem foldl_max_le {α : Type} (f : α → Score) (hi : Score) (l : List α) (t : Score)
    (ht : t ≤ hi) (h : ∀ x ∈ l, f x ≤ hi) :
    l.foldl (fun best x => max best (f x)) t ≤ hi := by
  induction l generalizing t with
  | nil => exact ht
  | cons a rest ih =>
    exact ih (max t (f a)) (max_le ht (h a (List.mem_cons_self _ _)))
      (fun x hx => h x (List.mem_cons_of_mem _ hx))

theorem le_foldl_min {α : Type} (f : α → Score) (lo : Score) (l : List α) (t : Score)
    (ht : lo ≤ t) (h : ∀ x ∈ l, lo ≤ f x) :
    lo ≤ l.foldl (fun best x => min best (f x)) t := by
  induction l generalizing t with
  | nil => exact ht
  | cons a rest ih =>
    exact ih (min t (f a)) (le_min ht (h a (List.mem_cons_self _ _)))
      (fun x hx => h x (List.mem_cons_of_mem _ hx))

theorem mem_le_foldl_max {α : Type} (f : α → Score) (l : List α) (t : Score) (x : α)
    (hx : x ∈ l) : f x ≤ l.foldl (fun best x => max best (f x)) t := by
  induction l generalizing t with
  | nil => simp at hx
  | cons a rest ih =>
    rw [List.foldl_cons]
    rcases List.mem_cons.1 hx with rfl | h
    · exact le_trans (le_max_right _ _) (le_foldl_max _ _ _)
    · exact ih _ h

theorem foldl_min_le_mem {α : Type} (f : α → Score) (l : List α) (t : Score) (x : α)
    (hx : x ∈ l) : l.foldl (fun best x => min best (f x)) t ≤ f x := by
  induction l generalizing t with
  | nil => simp at hx
  | cons a rest ih =>
    rw [List.foldl_cons]
    rcases List.mem_cons.1 hx with rfl | h
    · exact le_trans (foldl_min_le _ _ _) (min_le_right _ _)
    · exact ih _ h

/-- The exhaustive score of a 6x5 board with at most one king of each colour lies between
-9999 and 9999. -/
theorem exhaustive_bounds (depth : Nat) :
    ∀ (board : Board) (side : Bool), WellFormed board →
      board.flatten.count Cell.K ≤ 1 → board.flatten.count Cell.k ≤ 1 →
      fin (-9999) ≤ exhaustive depth board side ∧ exhaustive depth board side ≤ fin 9999 := by
  have hlo : fin (-9999) ≤ fin 9999 := (fin_le_fin _ _).2 (by omega)
  have hK0 : Cell.K ≠ Cell.N ∧ Cell.K ≠ Cell.n ∧ Cell.K ≠ Cell.dot := by decide
  have hk0 : Cell.k ≠ Cell.N ∧ Cell.k ≠ Cell.n ∧ Cell.k ≠ Cell.dot := by decide
  induction depth with
  | zero =>
    intro board side hwf hK hk
    obtain ⟨e1, e2⟩ := evaluate_bounds board hwf hK hk
    rw [exhaustive_zero]
    split_ifs
    · exact ⟨le_rfl, hlo⟩
    · exact ⟨hlo, le_rfl⟩
    · exact ⟨(fin_le_fin _ _).2 e1, (fin_le_fin _ _).2 e2⟩
  | succ d ih =>
    intro board side hwf hK hk
    obtain ⟨e1, e2⟩ := evaluate_bounds board hwf hK hk
    have hchild : ∀ m ∈ generateMoves board side, ∀ s : Bool,
        fin (-9999) ≤ exhaustive d (applyMove board m) s ∧
          exhaustive d (applyMove board m) s ≤ fin 9999 := by
      intro m hm s
      obtain ⟨hf, ht⟩ := generateMoves_inRange board side m hm
      exact ih (applyMove board m) s (wellFormed_applyMove board m hwf)
        (le_trans (count_applyMove_le board m Cell.K hwf hf ht hK0) hK)
        (le_trans (count_applyMove_le board m Cell.k hwf hf ht hk0) hk)
    rw [exhaustive_succ]
    split_ifs with h1 h2 h3 h4
    · exact ⟨le_rfl, hlo⟩
    · exact ⟨hlo, le_rfl⟩
    · exact ⟨(fin_le_fin _ _).2 e1, (fin_le_fin _ _).2 e2⟩
    · obtain ⟨m0, hm0⟩ := List.exists_mem_of_length_pos (Nat.pos_of_ne_zero h3)
      exact ⟨le_trans (hchild m0 hm0 false).1
          (mem_le_foldl_max (fun m => exhaustive d (applyMove board m) false) _ ⊥ m0 hm0),
        foldl_max_le (fun m => exhaustive d (applyMove board m) false) _ _ ⊥ bot_le
          (fun m hm => (hchild m hm false).2)⟩
    · obtain ⟨m0, hm0⟩ := List.exists_mem_of_length_pos (Nat.pos_of_ne_zero h3)
      exact ⟨le_foldl_min (fun m => exhaustive d (applyMove board m) true) _ _ ⊤ le_top
          (fun m hm => (hchild m hm true).1),
        le_trans (foldl_min_le_mem (fun m => exhaustive d (applyMove board m) true) _ ⊤ m0 hm0)
          (hchild m0 hm0 true).2⟩

/-! ## King captures -/

/-- A move between two different squares of the grid changes the number of kings of one
colour only by a captured king of that colour. -/
theorem king_count_applyMove (board : Board) (move : Move) (v : Cell)
    (hv : v = Cell.K ∨ v = Cell.k) (hwf : WellFormed board) (hfrom : InRange move.1)
    (hto : InRange move.2) (hne : move.1 ≠ move.2) :
    ((applyMove board move).flatten.count v : Int) =
      (board.flatten.count v : Int) - (if cellAt board move.2.1 move.2.2 = v then 1 else 0) := by
  have hd : (if Cell.dot = v then (1 : Int) else 0) = 0 := by
    rcases hv with rfl | rfl <;> rfl
  have hnew : (if (if cellAt board move.1.1 move.1.2 = Cell.P ∧ move.2.1 = 0 then Cell.N
      else if cellAt board move.1.1 move.1.2 = Cell.p ∧ move.2.1 = 5 then Cell.n
      else cellAt board move.1.1 move.1.2) = v then (1 : Int) else 0) =
      (if cellAt board move.1.1 move.1.2 = v then (1 : Int) else 0) := by
    by_cases hp1 : cellAt board move.1.1 move.1.2 = Cell.P ∧ move.2.1 = 0
    · rw [if_pos hp1, hp1.1]
      rcases hv with rfl | rfl <;> rfl
    · rw [if_neg hp1]
      by_cases hp2 : cellAt board move.1.1 move.1.2 = Cell.p ∧ move.2.1 = 5
      · rw [if_pos hp2, hp2.1]
        rcases hv with rfl | rfl <;> rfl
      · rw [if_neg hp2]
  rw [count_eq_cellSum, count_eq_cellSum, cellSum_applyMove _ board move hwf hfrom hto hne,
    cellAt_applyMove_to board move hwf hto hne]
  simp only [hd, hnew]
  ring

theorem contains_of_count_pos (l : List Cell) (v : Cell) (h : 0 < l.count v) :
    l.contains v = true := by
  have : v ∈ l := List.count_pos_iff.1 h
  simpa using this

theorem contains_of_count_zero (l : List Cell) (v : Cell) (h : l.count v = 0) :
    l.contains v = false := by
  have : v ∉ l := List.count_eq_zero.1 h
  simpa using this

theorem exhaustive_no_white_king (depth : Nat) (board : Board) (side : Bool)
    (h : board.flatten.contains Cell.K = false) : exhaustive depth board side = fin (-9999) := by
  cases depth
  · rw [exhaustive_zero, h]; rfl
  · rw [exhaustive_succ, h]; rfl

theorem exhaustive_no_black_king (depth : Nat) (board : Board) (side : Bool)
    (h1 : board.flatten.contains Cell.K = true) (h2 : board.flatten.contains Cell.k = false) :
    exhaustive depth board side = fin 9999 := by
  cases depth
  · rw [exhaustive_zero, h1, h2]; rfl
  · rw [exhaustive_succ, h1, h2]; rfl

/-- The position after a generated move that lands on the only king of the other side is
scored as won for the mover. -/
theorem exhaustive_after_capture (depth : Nat) (board : Board) (side next : Bool) (m : Move)
    (hwf : WellFormed board) (hK : board.flatten.count Cell.K = 1)
    (hk : board.flatten.count Cell.k = 1) (hm : m ∈ generateMoves board side)
    (hking : cellAt board m.2.1 m.2.2 = if side then Cell.k else Cell.K) :
    exhaustive depth (applyMove board m) next = if side then fin 9999 else fin (-9999) := by
  obtain ⟨hf, ht, hne, -, -, -⟩ := generated_move_facts board side m hwf hm
  have cK := king_count_applyMove board m Cell.K (Or.inl rfl) hwf hf ht hne
  have ck := king_count_applyMove board m Cell.k (Or.inr rfl) hwf hf ht hne
  rw [hK, hking] at cK
  rw [hk, hking] at ck
  cases side with
  | true =>
    simp only [if_true] at cK ck ⊢
    rw [if_neg (by decide)] at cK
    have c1 : (applyMove board m).flatten.count Cell.K = 1 := by
      have : ((applyMove board m).flatten.count Cell.K : Int) = 1 := by rw [cK]; norm_num
      exact_mod_cast this
    have c2 : (applyMove board m).flatten.count Cell.k = 0 := by
      have : ((applyMove board m).flatten.count Cell.k : Int) = 0 := by rw [ck]; norm_num
      exact_mod_cast this
    exact exhaustive_no_black_king depth _ next
      (contains_of_count_pos _ _ (by rw [c1]; exact Nat.one_pos)) (contains_of_count_zero _ _ c2)
  | false =>
    simp only [Bool.false_eq_true, if_false] at cK ⊢
    have c1 : (applyMove board m).flatten.count Cell.K = 0 := by
      have : ((applyMove board m).flatten.count Cell.K : Int) = 0 := by rw [cK]; norm_num
      exact_mod_cast this
    exact exhaustive_no_white_king depth _ next (contains_of_count_zero _ _ c1)

/-! ## Properties of the move generator -/

/-- C2: on a 6x5 board every generated move goes from a square of the grid that holds a
piece of the side to move to a square of the grid that is empty or holds a piece of the
other side; the destination never holds a piece of the side to move. -/
theorem generateMoves_from_own_to_free_or_enemy (board : Board) (side : Bool)
    (_hwf : WellFormed board) (m : Move) (hm : m ∈ generateMoves board side) :
    (InRange m.1 ∧ sideOf (cellAt board m.1.1 m.1.2) = some side) ∧
      (InRange m.2 ∧
        (cellAt board m.2.1 m.2.2 = Cell.dot ∨
          sideOf (cellAt board m.2.1 m.2.2) = some (!side)) ∧
        sideOf (cellAt board m.2.1 m.2.2) ≠ some side) := by
  have hr := generateMoves_inRange board side m hm
  rw [mem_generateMoves_iff] at hm
  obtain ⟨-, hs, hp⟩ := hm
  have hto := (pieceMoves_sound board _ _ _ side m hp).2
  refine ⟨⟨hr.1, hs⟩, hr.2, ?_, hto⟩
  revert hto
  cases cellAt board m.2.1 m.2.2 <;> cases side <;> simp [sideOf]

/-- C2 at the first white pawn move of the initial position. -/
theorem generateMoves_from_own_to_free_or_enemy_witness :
    WellFormed initialBoard ∧ ((4, 0), (3, 0)) ∈ generateMoves initialBoard true ∧
      ((InRange ((4, 0) : Square) ∧ sideOf (cellAt initialBoard 4 0) = some true) ∧
        (InRange ((3, 0) : Square) ∧
          (cellAt initialBoard 3 0 = Cell.dot ∨ sideOf (cellAt initialBoard 3 0) = some (!true)) ∧
          sideOf (cellAt initialBoard 3 0) ≠ some true)) :=
  ⟨by decide, by decide,
    generateMoves_from_own_to_free_or_enemy initialBoard true (by decide) ((4, 0), (3, 0))
      (by decide)⟩

/-! ## Properties of move application -/

/-- C3 fails for a move whose two squares coincide: moving the white king of the initial
position from (5,2) to (5,2) leaves the square empty, so the destination square does not
hold the piece that stood on the source square. -/
theorem applyMove_same_square_counterexample :
    WellFormed initialBoard ∧ InRange ((5, 2) : Square) ∧
      cellAt initialBoard 5 2 = Cell.K ∧
      cellAt (applyMove initialBoard ((5, 2), (5, 2))) 5 2 = Cell.dot ∧
      ¬ MoveEffect initialBoard ((5, 2), (5, 2)) (applyMove initialBoard ((5, 2), (5, 2))) := by
  refine ⟨by decide, by decide, by decide, by decide, ?_⟩
  rintro ⟨-, -, h, -⟩
  revert h
  decide

/-- C3, amended: for a 6x5 board and a move between two different squares of the grid,
`applyMove` yields a 6x5 board whose source square is empty, whose destination square
holds the piece that stood on the source square (or its promotion knight), and whose other
squares hold what they held before.  On a store of row arrays the call writes only to the
fresh copies of the rows: the new board object stands for that same board value, which is
a function of the board value and the move alone, and the board object that was passed in
still stands for the board value it stood for. -/
theorem applyMove_effect (board : Board) (move : Move) (hwf : WellFormed board)
    (hfrom : InRange move.1) (hto : InRange move.2) (hne : move.1 ≠ move.2) :
    MoveEffect board move (applyMove board move) ∧
      ∀ (store : Store) (ref : BoardRef), (∀ a ∈ ref, a < store.length) →
        boardOf store ref = board →
        boardOf (applyMoveInStore store ref move).1 (applyMoveInStore store ref move).2 =
            applyMove board move ∧
          boardOf (applyMoveInStore store ref move).1 ref = board := by
  refine ⟨⟨wellFormed_applyMove board move hwf, cellAt_applyMove_from board move hwf hfrom hne,
    ?_, fun r c h1 h2 => cellAt_applyMove_other board move r c h1 h2⟩, ?_⟩
  · rw [cellAt_applyMove_to board move hwf hto hne]
    split_ifs with h1 h2
    · exact Or.inr (Or.inl ⟨h1.1, rfl⟩)
    · exact Or.inr (Or.inr ⟨h2.1, rfl⟩)
    · exact Or.inl rfl
  · intro store ref hvalid hboard
    obtain ⟨hnew, hold⟩ := applyMoveInStore_spec store ref move
    refine ⟨by rw [hnew, hboard], ?_⟩
    rw [← hboard]
    unfold boardOf
    apply List.map_congr_left
    intro a ha
    rw [hold a (hvalid a ha)]

/-- C3, amended, at the first white pawn move of the initial position. -/
theorem applyMove_effect_witness :
    WellFormed initialBoard ∧ InRange ((4, 0) : Square) ∧ InRange ((3, 0) : Square) ∧
      ((4, 0) : Square) ≠ (3, 0) ∧
      (MoveEffect initialBoard ((4, 0), (3, 0)) (applyMove initialBoard ((4, 0), (3, 0))) ∧
        ∀ (store : Store) (ref : BoardRef), (∀ a ∈ ref, a < store.length) →
          boardOf store ref = initialBoard →
          boardOf (applyMoveInStore store ref ((4, 0), (3, 0))).1
              (applyMoveInStore store ref ((4, 0), (3, 0))).2 =
              applyMove initialBoard ((4, 0), (3, 0)) ∧
            boardOf (applyMoveInStore store ref ((4, 0), (3, 0))).1 ref = initialBoard) :=
  ⟨by decide, by decide, by decide, by decide,
    applyMove_effect initialBoard ((4, 0), (3, 0)) (by decide) (by decide) (by decide)
      (by decide)⟩

/-- C4: for a 6x5 board and a move between two different squares of the grid, a white
pawn that arrives in row 0 leaves a white knight on the destination square, a black pawn
that arrives in row 5 leaves a black knight there, and in every other case the destination
square holds exactly the piece that stood on the source square. -/
theorem applyMove_promotion (board : Board) (move : Move) (hwf : WellFormed board)
    (_hfrom : InRange move.1) (hto : InRange move.2) (hne : move.1 ≠ move.2) :
    (cellAt board move.1.1 move.1.2 = Cell.P ∧ move.2.1 = 0 →
        cellAt (applyMove board move) move.2.1 move.2.2 = Cell.N) ∧
      (cellAt board move.1.1 move.1.2 = Cell.p ∧ move.2.1 = 5 →
        cellAt (applyMove board move) move.2.1 move.2.2 = Cell.n) ∧
      (¬ (cellAt board move.1.1 move.1.2 = Cell.P ∧ move.2.1 = 0) →
        ¬ (cellAt board move.1.1 move.1.2 = Cell.p ∧ move.2.1 = 5) →
        cellAt (applyMove board move) move.2.1 move.2.2 = cellAt board move.1.1 move.1.2) := by
  rw [cellAt_applyMove_to board move hwf hto hne]
  refine ⟨fun h => by rw [if_pos h], fun h => ?_, fun h1 h2 => by rw [if_neg h1, if_neg h2]⟩
  have h1 : ¬ (cellAt board move.1.1 move.1.2 = Cell.P ∧ move.2.1 = 0) := by
    rintro ⟨hP, -⟩
    rw [h.1] at hP
    cases hP
  rw [if_neg h1, if_pos h]

/-- C4 at a promotion: on `promotionBoard` the white pawn on (1, 1) moves to (0, 1) in
row 0, the first case of the statement applies, and a white knight is left on (0, 1). -/
theorem applyMove_promotion_witness :
    WellFormed promotionBoard ∧ InRange ((1, 1) : Square) ∧ InRange ((0, 1) : Square) ∧
      ((1, 1) : Square) ≠ (0, 1) ∧
      ((cellAt promotionBoard 1 1 = Cell.P ∧ (0 : Int) = 0 →
          cellAt (applyMove promotionBoard ((1, 1), (0, 1))) 0 1 = Cell.N) ∧
        (cellAt promotionBoard 1 1 = Cell.p ∧ (0 : Int) = 5 →
          cellAt (applyMove promotionBoard ((1, 1), (0, 1))) 0 1 = Cell.n) ∧
        (¬ (cellAt promotionBoard 1 1 = Cell.P ∧ (0 : Int) = 0) →
          ¬ (cellAt promotionBoard 1 1 = Cell.p ∧ (0 : Int) = 5) →
          cellAt (applyMove promotionBoard ((1, 1), (0, 1))) 0 1 = cellAt promotionBoard 1 1)) ∧
      ((1, 1), (0, 1)) ∈ generateMoves promotionBoard true ∧
      (cellAt promotionBoard 1 1 = Cell.P ∧ (0 : Int) = 0) ∧
      cellAt (applyMove promotionBoard ((1, 1), (0, 1))) 0 1 = Cell.N :=
  ⟨by decide, by decide, by decide, by decide,
    applyMove_promotion promotionBoard ((1, 1), (0, 1)) (by decide) (by decide) (by decide)
      (by decide),
    by decide, by decide,
    (applyMove_promotion promotionBoard ((1, 1), (0, 1)) (by decide) (by decide) (by decide)
      (by decide)).1 (by decide)⟩

/-! ## Terminal positions of the search -/

/-- C5: on a 6x5 board without a white king the search returns the score -9999 and no
move, whatever the depth, the window and the side to move. -/
theorem minimax_no_white_king (depth : Nat) (board : Board) (alpha beta : Score)
    (maximizing : Bool) (hwf : WellFormed board) (hK : ¬ HasCell board Cell.K) :
    minimax depth board alpha beta maximizing = (fin (-9999), none) := by
  have h : board.flatten.contains Cell.K = false := by
    rw [← Bool.not_eq_true, contains_flatten_iff board hwf]
    exact hK
  cases depth
  · rw [minimax_zero, h]; rfl
  · rw [minimax_succ, h]; rfl

/-- C5 on the initial position without its white king, at depth 2. -/
theorem minimax_no_white_king_witness :
    WellFormed boardWithoutWhiteKing ∧ ¬ HasCell boardWithoutWhiteKing Cell.K ∧
      minimax 2 boardWithoutWhiteKing ⊥ ⊤ false = (fin (-9999), none) :=
  ⟨by decide, by decide,
    minimax_no_white_king 2 boardWithoutWhiteKing ⊥ ⊤ false (by decide) (by decide)⟩

/-- C6 fails on a board without any king: the white king is looked for first, so the
search returns -9999 although the board contains no black king. -/
theorem minimax_no_kings_counterexample :
    WellFormed boardWithoutKings ∧ ¬ HasCell boardWithoutKings Cell.k ∧
      minimax 1 boardWithoutKings ⊥ ⊤ true = (fin (-9999), none) ∧
      (minimax 1 boardWithoutKings ⊥ ⊤ true).1 ≠ fin 9999 := by
  refine ⟨by decide, by decide, by decide, by decide⟩

/-- C6, amended: on a 6x5 board that holds a white king and no black king the search
returns the score +9999 and no move, whatever the depth, the window and the side to
move. -/
theorem minimax_no_black_king (depth : Nat) (board : Board) (alpha beta : Score)
    (maximizing : Bool) (hwf : WellFormed board) (hK : HasCell board Cell.K)
    (hk : ¬ HasCell board Cell.k) :
    minimax depth board alpha beta maximizing = (fin 9999, none) := by
  have h1 : board.flatten.contains Cell.K = true := (contains_flatten_iff board hwf _).2 hK
  have h2 : board.flatten.contains Cell.k = false := by
    rw [← Bool.not_eq_true, contains_flatten_iff board hwf]
    exact hk
  cases depth
  · rw [minimax_zero, h1, h2]; rfl
  · rw [minimax_succ, h1, h2]; rfl

/-- C6, amended, on the initial position without its black king, at depth 1. -/
theorem minimax_no_black_king_witness :
    WellFormed boardWithoutBlackKing ∧ HasCell boardWithoutBlackKing Cell.K ∧
      ¬ HasCell boardWithoutBlackKing Cell.k ∧
      minimax 1 boardWithoutBlackKing ⊥ ⊤ true = (fin 9999, none) :=
  ⟨by decide, by decide, by decide,
    minimax_no_black_king 1 boardWithoutBlackKing ⊥ ⊤ true (by decide) (by decide) (by decide)⟩

/-! ## Static evaluation -/

/-- C8: on a 6x5 board the evaluation is the sum over all thirty squares of the value of
the piece on the square: pawn 1, knight 3, rook 5, king 1000, negated for black, and 0 for
an empty square. -/
theorem evaluate_eq_sum (board : Board) (hwf : WellFormed board) :
    evaluate board =
      ∑ r ∈ Finset.range 6, ∑ c ∈ Finset.range 5, materialValue (cellAt board r c) := by
  conv_lhs => rw [board_eq_table board hwf]
  simp only [evaluate, List.map, List.foldl, piece_value_eq, Finset.sum_range_succ,
    Finset.sum_range_zero, Nat.cast_ofNat, Nat.cast_zero, Nat.cast_one]
  ring

/-- C8 on the initial position. -/
theorem evaluate_eq_sum_witness :
    WellFormed initialBoard ∧
      evaluate initialBoard =
        ∑ r ∈ Finset.range 6, ∑ c ∈ Finset.range 5, materialValue (cellAt initialBoard r c) :=
  ⟨by decide, evaluate_eq_sum initialBoard (by decide)⟩

/-! ## The pawn and the rook -/

/-- C10: on a 6x5 board with a pawn of side `side` on the square `(r, c)` of the grid, the
generator yields the move from `(r, c)` to `(x, y)` exactly when `x` is the forward row
(`r - 1` for white, `r + 1` for black), `x` is a row of the grid, and either `y = c` and
the square ahead is empty, or `y` is a neighbouring column of the grid and the square
`(x, y)` holds a piece of the other side. -/
theorem generateMoves_pawn_iff (board : Board) (side : Bool) (r c x y : Int)
    (_hwf : WellFormed board) (hrc : InRange (r, c))
    (hpawn : cellAt board r c = if side then Cell.P else Cell.p) :
    ((r, c), (x, y)) ∈ generateMoves board side ↔
      x = r + (if side then -1 else 1) ∧ 0 ≤ x ∧ x < 6 ∧
        ((y = c ∧ cellAt board x c = Cell.dot) ∨
          ((y = c - 1 ∨ y = c + 1) ∧ 0 ≤ y ∧ y < 5 ∧
            sideOf (cellAt board x y) = some (!side))) := by
  have hup : toUpperCase (cellAt board r c) = Cell.P := by
    rw [hpawn]; cases side <;> rfl
  have hside : sideOf (cellAt board r c) = some side := by
    rw [hpawn]; cases side <;> rfl
  rw [mem_generateMoves_iff]
  simp only
  rw [mem_pieceMoves_pawn board r c _ side hup]
  simp only [true_and]
  constructor
  · rintro ⟨-, -, h⟩
    exact h
  · intro h
    exact ⟨hrc, hside, h⟩

/-- C10 on the initial position, for the white pawn on (4, 0) and the square ahead. -/
theorem generateMoves_pawn_iff_witness :
    WellFormed initialBoard ∧ InRange ((4, 0) : Square) ∧
      cellAt initialBoard 4 0 = (if true then Cell.P else Cell.p) ∧
      (((4, 0), (3, 0)) ∈ generateMoves initialBoard true ↔
        (3 : Int) = 4 + (if true then -1 else 1) ∧ (0 : Int) ≤ 3 ∧ (3 : Int) < 6 ∧
          (((0 : Int) = 0 ∧ cellAt initialBoard 3 0 = Cell.dot) ∨
            (((0 : Int) = 0 - 1 ∨ (0 : Int) = 0 + 1) ∧ (0 : Int) ≤ 0 ∧ (0 : Int) < 5 ∧
              sideOf (cellAt initialBoard 3 0) = some (!true)))) :=
  ⟨by decide, by decide, by decide,
    generateMoves_pawn_iff initialBoard true 4 0 3 0 (by decide) (by decide) (by decide)⟩

/-- The squares of one rook ray: the moves of the ray that starts next to `(r, c)` in the
direction `(dr, dc)`, told by the number `k` of squares passed before the destination. -/
theorem mem_rookRay_start (board : Board) (r c : Int) (w : Bool) (dr dc x y : Int) :
    ((r, c), (x, y)) ∈ rookRay board r c w dr dc 5 1 ↔
      ∃ k : Nat, k < 5 ∧ x = r + dr * (1 + k) ∧ y = c + dc * (1 + k) ∧
        (∀ j : Nat, j < k → InRange (r + dr * (1 + j), c + dc * (1 + j)) ∧
          cellAt board (r + dr * (1 + j)) (c + dc * (1 + j)) = Cell.dot) ∧
        InRange (x, y) ∧ sideOf (cellAt board x y) ≠ some w := by
  rw [mem_rookRay]
  simp only [inBounds_iff, InRange, Prod.mk.injEq, true_and]
  constructor
  · rintro ⟨k, hk, ⟨rfl, rfl⟩, hj, hb, hs⟩
    exact ⟨k, hk, rfl, rfl, hj, hb, hs⟩
  · rintro ⟨k, hk, rfl, rfl, hj, hb, hs⟩
    exact ⟨k, hk, ⟨rfl, rfl⟩, hj, hb, hs⟩

/-- C9: on a 6x5 board with a rook of side `side` on the square `(r, c)` of the grid, the
generator yields the move from `(r, c)` to `(x, y)` exactly when `(x, y)` is another
square of the grid in the same row or the same column, every square strictly between the
two is empty, and `(x, y)` is empty or holds a piece of the other side. -/
theorem generateMoves_rook_iff (board : Board) (side : Bool) (r c x y : Int)
    (_hwf : WellFormed board) (hrc : InRange (r, c))
    (hrook : cellAt board r c = if side then Cell.R else Cell.r) :
    ((r, c), (x, y)) ∈ generateMoves board side ↔
      InRange (x, y) ∧ (x, y) ≠ (r, c) ∧
        ((x = r ∧ ∀ j : Int, (c < j ∧ j < y) ∨ (y < j ∧ j < c) → cellAt board r j = Cell.dot) ∨
          (y = c ∧ ∀ i : Int, (r < i ∧ i < x) ∨ (x < i ∧ i < r) → cellAt board i c = Cell.dot)) ∧
        (cellAt board x y = Cell.dot ∨ sideOf (cellAt board x y) = some (!side)) := by
  have hup : toUpperCase (cellAt board r c) = Cell.R := by
    rw [hrook]; cases side <;> rfl
  have hside : sideOf (cellAt board r c) = some side := by
    rw [hrook]; cases side <;> rfl
  have hfree : (cellAt board x y = Cell.dot ∨ sideOf (cellAt board x y) = some (!side)) ↔
      sideOf (cellAt board x y) ≠ some side := by
    cases cellAt board x y <;> cases side <;> simp [sideOf]
  rw [hfree, mem_generateMoves_iff]
  simp only
  rw [mem_pieceMoves_rook board r c _ side hup]
  obtain ⟨hr0, hr6, hc0, hc5⟩ := hrc
  simp only at hr0 hr6 hc0 hc5
  constructor
  · rintro ⟨-, -, d, hd, hm⟩
    rw [mem_rookRay_start] at hm
    obtain ⟨k, hk, hx, hy, hj, hb, hs⟩ := hm
    refine ⟨hb, ?_, ?_, hs⟩
    · simp only [List.mem_cons, List.mem_singleton, List.not_mem_nil, or_false] at hd
      rcases hd with rfl | rfl | rfl | rfl <;> simp only at hx hy <;>
        · intro h
          rw [Prod.mk.injEq] at h
          omega
    · simp only [List.mem_cons, List.mem_singleton, List.not_mem_nil, or_false] at hd
      rcases hd with rfl | rfl | rfl | rfl <;> simp only at hx hy hj
      · right
        refine ⟨by omega, ?_⟩
        intro i hi
        have h := (hj (r - i - 1).toNat (by omega)).2
        have e1 : r + -1 * (1 + (((r - i - 1).toNat : Nat) : Int)) = i := by omega
        have e2 : c + 0 * (1 + (((r - i - 1).toNat : Nat) : Int)) = c := by omega
        rw [e1, e2] at h
        exact h
      · right
        refine ⟨by omega, ?_⟩
        intro i hi
        have h := (hj (i - r - 1).toNat (by omega)).2
        have e1 : r + 1 * (1 + (((i - r - 1).toNat : Nat) : Int)) = i := by omega
        have e2 : c + 0 * (1 + (((i - r - 1).toNat : Nat) : Int)) = c := by omega
        rw [e1, e2] at h
        exact h
      · left
        refine ⟨by omega, ?_⟩
        intro j hjj
        have h := (hj (c - j - 1).toNat (by omega)).2
        have e1 : r + 0 * (1 + (((c - j - 1).toNat : Nat) : Int)) = r := by omega
        have e2 : c + -1 * (1 + (((c - j - 1).toNat : Nat) : Int)) = j := by omega
        rw [e1, e2] at h
        exact h
      · left
        refine ⟨by omega, ?_⟩
        intro j hjj
        have h := (hj (j - c - 1).toNat (by omega)).2
        have e1 : r + 0 * (1 + (((j - c - 1).toNat : Nat) : Int)) = r := by omega
        have e2 : c + 1 * (1 + (((j - c - 1).toNat : Nat) : Int)) = j := by omega
        rw [e1, e2] at h
        exact h
  · rintro ⟨hb, hne, hpath, hs⟩
    refine ⟨⟨hr0, hr6, hc0, hc5⟩, hside, ?_⟩
    obtain ⟨hx0, hx6, hy0, hy5⟩ := hb
    simp only at hx0 hx6 hy0 hy5
    have hne2 : x ≠ r ∨ y ≠ c := by
      by_contra hcon
      push_neg at hcon
      exact hne (by rw [hcon.1, hcon.2])
    rcases hpath with ⟨hx, hcl⟩ | ⟨hy, hcl⟩
    · rcases lt_or_gt_of_ne (show y ≠ c by omega) with hlt | hgt
      · refine ⟨(0, -1), by simp, ?_⟩
        rw [mem_rookRay_start]
        refine ⟨(c - y - 1).toNat, by omega, by omega, by omega, ?_,
          ⟨hx0, hx6, hy0, hy5⟩, hs⟩
        intro j hj
        have e1 : r + (0, (-1 : Int)).1 * (1 + (j : Int)) = r := by simp
        have e2 : c + (0, (-1 : Int)).2 * (1 + (j : Int)) = c - 1 - j := by simp; ring
        rw [e1, e2]
        exact ⟨⟨hr0, hr6, by simp only; omega, by simp only; omega⟩,
          hcl _ (Or.inr ⟨by omega, by omega⟩)⟩
      · refine ⟨(0, 1), by simp, ?_⟩
        rw [mem_rookRay_start]
        refine ⟨(y - c - 1).toNat, by omega, by omega, by omega, ?_,
          ⟨hx0, hx6, hy0, hy5⟩, hs⟩
        intro j hj
        have e1 : r + (0, (1 : Int)).1 * (1 + (j : Int)) = r := by simp
        have e2 : c + (0, (1 : Int)).2 * (1 + (j : Int)) = c + 1 + j := by simp; ring
        rw [e1, e2]
        exact ⟨⟨hr0, hr6, by simp only; omega, by simp only; omega⟩,
          hcl _ (Or.inl ⟨by omega, by omega⟩)⟩
    · rcases lt_or_gt_of_ne (show x ≠ r by omega) with hlt | hgt
      · refine ⟨(-1, 0), by simp, ?_⟩
        rw [mem_rookRay_start]
        refine ⟨(r - x - 1).toNat, by omega, by omega, by omega, ?_,
          ⟨hx0, hx6, hy0, hy5⟩, hs⟩
        intro j hj
        have e1 : r + ((-1 : Int), (0 : Int)).1 * (1 + (j : Int)) = r - 1 - j := by simp; ring
        have e2 : c + ((-1 : Int), (0 : Int)).2 * (1 + (j : Int)) = c := by simp
        rw [e1, e2]
        exact ⟨⟨by simp only; omega, by simp only; omega, hc0, hc5⟩,
          hcl _ (Or.inr ⟨by omega, by omega⟩)⟩
      · refine ⟨(1, 0), by simp, ?_⟩
        rw [mem_rookRay_start]
        refine ⟨(x - r - 1).toNat, by omega, by omega, by omega, ?_,
          ⟨hx0, hx6, hy0, hy5⟩, hs⟩
        intro j hj
        have e1 : r + ((1 : Int), (0 : Int)).1 * (1 + (j : Int)) = r + 1 + j := by simp; ring
        have e2 : c + ((1 : Int), (0 : Int)).2 * (1 + (j : Int)) = c := by simp
        rw [e1, e2]
        exact ⟨⟨by simp only; omega, by simp only; omega, hc0, hc5⟩,
          hcl _ (Or.inl ⟨by omega, by omega⟩)⟩

/-- C9 for the white rook on (5, 0) of `rookFileBoard` and the black pawn on (1, 0). -/
theorem generateMoves_rook_iff_witness :
    WellFormed rookFileBoard ∧ InRange ((5, 0) : Square) ∧
      cellAt rookFileBoard 5 0 = (if true then Cell.R else Cell.r) ∧
      (((5, 0), (1, 0)) ∈ generateMoves rookFileBoard true ↔
        InRange ((1, 0) : Square) ∧ ((1, 0) : Square) ≠ (5, 0) ∧
          (((1 : Int) = 5 ∧ ∀ j : Int, ((0 : Int) < j ∧ j < 0) ∨ ((0 : Int) < j ∧ j < 0) →
              cellAt rookFileBoard 5 j = Cell.dot) ∨
            ((0 : Int) = 0 ∧ ∀ i : Int, ((5 : Int) < i ∧ i < 1) ∨ ((1 : Int) < i ∧ i < 5) →
              cellAt rookFileBoard i 0 = Cell.dot)) ∧
          (cellAt rookFileBoard 1 0 = Cell.dot ∨
            sideOf (cellAt rookFileBoard 1 0) = some (!true))) :=
  ⟨by decide, by decide, by decide,
    generateMoves_rook_iff rookFileBoard true 5 0 1 0 (by decide) (by decide) (by decide)⟩

/-! ## Pruning does not change the score -/

/-- C1: for every depth, every 6x5 board and either side to move, the score that the
search returns for the window from `-Infinity` to `Infinity` is the score of the
exhaustive minimax without pruning. -/
theorem minimax_eq_exhaustive (depth : Nat) (board : Board) (maximizing : Bool)
    (_hwf : WellFormed board) :
    (minimax depth board ⊥ ⊤ maximizing).1 = exhaustive depth board maximizing :=
  failSoft_full (minimax_failSoft depth board ⊥ ⊤ maximizing (bot_lt_top))

/-- C1 on the initial position at depth 2 with black to move. -/
theorem minimax_eq_exhaustive_witness :
    WellFormed initialBoard ∧
      (minimax 2 initialBoard ⊥ ⊤ false).1 = exhaustive 2 initialBoard false :=
  ⟨by decide, minimax_eq_exhaustive 2 initialBoard false (by decide)⟩

/-! ## Ties keep the first move -/

/-- C7: on a 6x5 board with both kings, at depth `n ≥ 1`, for the window from `-Infinity`
to `Infinity` and a side that has a move, the search returns a move, and this move is the
first one in generation order whose exact value (the exhaustive minimax of the position
after the move, at depth `n - 1`, for the other side) equals the returned score. -/
theorem minimax_returns_first_best (n : Nat) (board : Board) (side : Bool) (hn : 1 ≤ n)
    (hwf : WellFormed board) (hK : HasCell board Cell.K) (hk : HasCell board Cell.k)
    (hmoves : generateMoves board side ≠ []) :
    ∃ best, (minimax n board ⊥ ⊤ side).2 = some best ∧
      (generateMoves board side).find? (fun move =>
        decide (exhaustive (n - 1) (applyMove board move) (!side) =
          (minimax n board ⊥ ⊤ side).1)) = some best := by
  obtain ⟨d, rfl⟩ : ∃ d, n = d + 1 := ⟨n - 1, by omega⟩
  have h1 : board.flatten.contains Cell.K = true := (contains_flatten_iff board hwf _).2 hK
  have h2 : board.flatten.contains Cell.k = true := (contains_flatten_iff board hwf _).2 hk
  have h3 : ¬ (generateMoves board side).length = 0 := by
    intro h
    exact hmoves (List.length_eq_zero.1 h)
  obtain ⟨v, hv⟩ := minimax_fin (d + 1) board ⊥ ⊤ side
  rw [Nat.add_sub_cancel]
  rw [minimax_succ, h1, h2] at hv ⊢
  simp only [Bool.not_true, Bool.false_eq_true, if_false, if_neg h3] at hv ⊢
  cases side with
  | true =>
    simp only [if_true] at hv ⊢
    have key := maxLoop_top_best (fun b a be => minimax d b a be false)
      (fun b => exhaustive d b false) board
      (fun b a => by
        obtain ⟨e, he⟩ := minimax_fin d b a ⊤ false
        simp only [he]
        exact fin_lt_top e)
      (fun b a ha => minimax_failSoft d b a ⊤ false ha)
      (generateMoves board true) ⊥ none bot_lt_top
    exact key.2.2 (by rw [hv]; exact bot_lt_fin v)
  | false =>
    simp only [Bool.false_eq_true, if_false] at hv ⊢
    have key := minLoop_bot_best (fun b a be => minimax d b a be true)
      (fun b => exhaustive d b true) board
      (fun b be => by
        obtain ⟨e, he⟩ := minimax_fin d b ⊥ be true
        simp only [he]
        exact bot_lt_fin e)
      (fun b be hbe => minimax_failSoft d b ⊥ be true hbe)
      (generateMoves board false) ⊤ none bot_lt_top
    exact key.2.2 (by rw [hv]; exact fin_lt_top v)

/-- C7 on the initial position at depth 2 with black to move. -/
theorem minimax_returns_first_best_witness :
    1 ≤ 2 ∧ WellFormed initialBoard ∧ HasCell initialBoard Cell.K ∧
      HasCell initialBoard Cell.k ∧ generateMoves initialBoard false ≠ [] ∧
      ∃ best, (minimax 2 initialBoard ⊥ ⊤ false).2 = some best ∧
        (generateMoves initialBoard false).find? (fun move =>
          decide (exhaustive (2 - 1) (applyMove initialBoard move) (!false) =
            (minimax 2 initialBoard ⊥ ⊤ false).1)) = some best :=
  ⟨by decide, by decide, by decide, by decide, by decide,
    minimax_returns_first_best 2 initialBoard false (by decide) (by decide) (by decide)
      (by decide) (by decide)⟩

/-! ## The knight and the king -/

/-- C11: on a 6x5 board with a knight (resp. a king) of side `side` on the square `(r, c)`
of the grid, the generator yields the move from `(r, c)` to `(x, y)` exactly when `(x, y)`
is a square of the grid, the displacement is one of the eight L-shaped offsets (resp. one
of the eight adjacent offsets), and `(x, y)` is empty or holds a piece of the other
side. -/
theorem generateMoves_knight_king_iff (board : Board) (side : Bool) (r c x y : Int)
    (_hwf : WellFormed board) (hrc : InRange (r, c)) :
    (cellAt board r c = (if side then Cell.N else Cell.n) →
      (((r, c), (x, y)) ∈ generateMoves board side ↔
        InRange (x, y) ∧ ((|x - r| = 1 ∧ |y - c| = 2) ∨ (|x - r| = 2 ∧ |y - c| = 1)) ∧
          (cellAt board x y = Cell.dot ∨ sideOf (cellAt board x y) = some (!side)))) ∧
    (cellAt board r c = (if side then Cell.K else Cell.k) →
      (((r, c), (x, y)) ∈ generateMoves board side ↔
        InRange (x, y) ∧ max |x - r| |y - c| = 1 ∧
          (cellAt board x y = Cell.dot ∨ sideOf (cellAt board x y) = some (!side)))) := by
  have hfree : (cellAt board x y = Cell.dot ∨ sideOf (cellAt board x y) = some (!side)) ↔
      sideOf (cellAt board x y) ≠ some side := by
    cases cellAt board x y <;> cases side <;> simp [sideOf]
  rw [hfree, mem_generateMoves_iff]
  simp only
  rcases abs_cases (x - r) with ⟨hx, hx0⟩ | ⟨hx, hx0⟩ <;>
    rcases abs_cases (y - c) with ⟨hy, hy0⟩ | ⟨hy, hy0⟩ <;>
    rw [hx, hy]
  all_goals
    constructor
    · intro hpiece
      have hup : toUpperCase (cellAt board r c) = Cell.N := by
        rw [hpiece]; cases side <;> rfl
      have hside : sideOf (cellAt board r c) = some side := by
        rw [hpiece]; cases side <;> rfl
      rw [mem_pieceMoves_knight board r c _ side hup]
      constructor
      · rintro ⟨-, -, d, hd, hm, hb, hs⟩
        rw [Prod.mk.injEq, Prod.mk.injEq] at hm
        obtain ⟨-, rfl, rfl⟩ := hm
        refine ⟨(inBounds_iff _ _).1 hb, ?_, hs⟩
        simp only [List.mem_cons, List.mem_singleton, List.not_mem_nil, or_false] at hd
        rcases hd with rfl | rfl | rfl | rfl | rfl | rfl | rfl | rfl <;> simp only <;> omega
      · rintro ⟨hb, hd, hs⟩
        refine ⟨hrc, hside, (x - r, y - c), ?_, ?_, ?_, ?_⟩
        · have h1 : (x - r = 1 ∨ x - r = -1 ∨ x - r = 2 ∨ x - r = -2) := by omega
          have h2 : (y - c = 1 ∨ y - c = -1 ∨ y - c = 2 ∨ y - c = -2) := by omega
          rcases h1 with h1 | h1 | h1 | h1 <;> rcases h2 with h2 | h2 | h2 | h2 <;>
            rw [h1, h2] <;> first | decide | (exfalso; omega)
        · simp only [Prod.mk.injEq, true_and]
          constructor <;> omega
        · rw [inBounds_iff]
          simp only [add_sub_cancel]
          exact hb
        · simp only [add_sub_cancel]
          exact hs
    · intro hpiece
      have hup : toUpperCase (cellAt board r c) = Cell.K := by
        rw [hpiece]; cases side <;> rfl
      have hside : sideOf (cellAt board r c) = some side := by
        rw [hpiece]; cases side <;> rfl
      rw [mem_pieceMoves_king board r c _ side hup]
      constructor
      · rintro ⟨-, -, dr, hdr, dc, hdc, h0, hm, hb, hs⟩
        rw [Prod.mk.injEq, Prod.mk.injEq] at hm
        obtain ⟨-, rfl, rfl⟩ := hm
        refine ⟨(inBounds_iff _ _).1 hb, ?_, hs⟩
        simp only [List.mem_cons, List.mem_singleton, List.not_mem_nil, or_false] at hdr hdc
        rcases hdr with rfl | rfl | rfl <;> rcases hdc with rfl | rfl | rfl <;>
          first | (exfalso; exact h0 ⟨rfl, rfl⟩) | omega
      · rintro ⟨hb, hd, hs⟩
        refine ⟨hrc, hside, x - r, ?_, y - c, ?_, ?_, ?_, ?_, ?_⟩
        · have h1 : (x - r = -1 ∨ x - r = 0 ∨ x - r = 1) := by omega
          rcases h1 with h1 | h1 | h1 <;> rw [h1] <;> decide
        · have h2 : (y - c = -1 ∨ y - c = 0 ∨ y - c = 1) := by omega
          rcases h2 with h2 | h2 | h2 <;> rw [h2] <;> decide
        · rintro ⟨h1, h2⟩
          omega
        · simp only [Prod.mk.injEq, true_and]
          constructor <;> omega
        · rw [inBounds_iff]
          simp only [add_sub_cancel]
          exact hb
        · simp only [add_sub_cancel]
          exact hs

/-- C11 on the initial position, for the square (5, 1) of the white knight and the
destination (3, 0). -/
theorem generateMoves_knight_king_iff_witness :
    WellFormed initialBoard ∧ InRange ((5, 1) : Square) ∧
      ((cellAt initialBoard 5 1 = (if true then Cell.N else Cell.n) →
        (((5, 1), (3, 0)) ∈ generateMoves initialBoard true ↔
          InRange ((3, 0) : Square) ∧
            ((|(3 : Int) - 5| = 1 ∧ |(0 : Int) - 1| = 2) ∨
              (|(3 : Int) - 5| = 2 ∧ |(0 : Int) - 1| = 1)) ∧
            (cellAt initialBoard 3 0 = Cell.dot ∨
              sideOf (cellAt initialBoard 3 0) = some (!true)))) ∧
      (cellAt initialBoard 5 1 = (if true then Cell.K else Cell.k) →
        (((5, 1), (3, 0)) ∈ generateMoves initialBoard true ↔
          InRange ((3, 0) : Square) ∧ max |(3 : Int) - 5| |(0 : Int) - 1| = 1 ∧
            (cellAt initialBoard 3 0 = Cell.dot ∨
              sideOf (cellAt initialBoard 3 0) = some (!true))))) :=
  ⟨by decide, by decide,
    generateMoves_knight_king_iff initialBoard true 5 1 3 0 (by decide) (by decide)⟩

/-! ## Leaves, returned moves and the fail-soft bound -/

/-- C12: on a 6x5 board with both kings and for every window, the search at depth 0
returns the evaluation of the board and no move, for either side; at a depth `n ≥ 1` it
returns the evaluation of the board and no move when the side to move has no move. -/
theorem minimax_static_leaf (board : Board) (alpha beta : Score) (side : Bool)
    (hwf : WellFormed board) (hK : HasCell board Cell.K) (hk : HasCell board Cell.k) :
    minimax 0 board alpha beta side = (fin (evaluate board), none) ∧
      ∀ n : Nat, 1 ≤ n → generateMoves board side = [] →
        minimax n board alpha beta side = (fin (evaluate board), none) := by
  have h1 : board.flatten.contains Cell.K = true := (contains_flatten_iff board hwf _).2 hK
  have h2 : board.flatten.contains Cell.k = true := (contains_flatten_iff board hwf _).2 hk
  constructor
  · rw [minimax_zero, h1, h2]
    rfl
  · intro n hn hmoves
    obtain ⟨d, rfl⟩ : ∃ d, n = d + 1 := ⟨n - 1, by omega⟩
    rw [minimax_succ, h1, h2, hmoves]
    rfl

/-- C12 on the initial position with black to move. -/
theorem minimax_static_leaf_witness :
    WellFormed initialBoard ∧ HasCell initialBoard Cell.K ∧ HasCell initialBoard Cell.k ∧
      (minimax 0 initialBoard ⊥ ⊤ false = (fin (evaluate initialBoard), none) ∧
        ∀ n : Nat, 1 ≤ n → generateMoves initialBoard false = [] →
          minimax n initialBoard ⊥ ⊤ false = (fin (evaluate initialBoard), none)) :=
  ⟨by decide, by decide, by decide,
    minimax_static_leaf initialBoard ⊥ ⊤ false (by decide) (by decide) (by decide)⟩

/-- C13: on a 6x5 board, at a depth `n ≥ 1`, for every window and either side, the search
returns no move exactly when a king is missing or the side to move has no move; a move
that is returned is one of the generated moves, and the score returned with it is a finite
integer. -/
theorem minimax_move_iff (n : Nat) (board : Board) (alpha beta : Score) (side : Bool)
    (hn : 1 ≤ n) (hwf : WellFormed board) :
    ((minimax n board alpha beta side).2 = none ↔
        (¬ HasCell board Cell.K ∨ ¬ HasCell board Cell.k ∨ generateMoves board side = [])) ∧
      ∀ m, (minimax n board alpha beta side).2 = some m →
        m ∈ generateMoves board side ∧ ∃ v : Int, (minimax n board alpha beta side).1 = fin v := by
  obtain ⟨d, rfl⟩ : ∃ d, n = d + 1 := ⟨n - 1, by omega⟩
  have hfin := minimax_fin (d + 1) board alpha beta side
  by_cases hK : HasCell board Cell.K
  · have h1 : board.flatten.contains Cell.K = true := (contains_flatten_iff board hwf _).2 hK
    by_cases hk : HasCell board Cell.k
    · have h2 : board.flatten.contains Cell.k = true := (contains_flatten_iff board hwf _).2 hk
      by_cases hmoves : generateMoves board side = []
      · have hnone : (minimax (d + 1) board alpha beta side).2 = none := by
          rw [minimax_succ, h1, h2, hmoves]
          rfl
        refine ⟨⟨fun _ => Or.inr (Or.inr hmoves), fun _ => hnone⟩, fun m hm => ?_⟩
        rw [hnone] at hm
        cases hm
      · have h3 : ¬ (generateMoves board side).length = 0 := fun h =>
          hmoves (List.length_eq_zero.1 h)
        have hsome : ∃ m ∈ generateMoves board side,
            (minimax (d + 1) board alpha beta side).2 = some m := by
          rw [minimax_succ, h1, h2]
          simp only [Bool.not_true, Bool.false_eq_true, if_false, if_neg h3]
          cases side with
          | true =>
            simp only [if_true]
            exact (maxLoop_move (fun b a be => minimax d b a be false) board beta
              (fun b a be => by
                obtain ⟨e, he⟩ := minimax_fin d b a be false
                simp only [he]
                exact bot_lt_fin e)
              (generateMoves board true) alpha ⊥ none).2 rfl hmoves
          | false =>
            simp only [Bool.false_eq_true, if_false]
            exact (minLoop_move (fun b a be => minimax d b a be true) board alpha
              (fun b a be => by
                obtain ⟨e, he⟩ := minimax_fin d b a be true
                simp only [he]
                exact fin_lt_top e)
              (generateMoves board false) beta ⊤ none).2 rfl hmoves
        obtain ⟨m0, hm0, hbest⟩ := hsome
        refine ⟨⟨fun h => ?_, fun h => ?_⟩, fun m hm => ?_⟩
        · rw [hbest] at h
          cases h
        · rcases h with h | h | h
          · exact absurd hK h
          · exact absurd hk h
          · exact absurd h hmoves
        · rw [hbest] at hm
          cases hm
          exact ⟨hm0, hfin⟩
    · have hnone : (minimax (d + 1) board alpha beta side).2 = none := by
        rw [minimax_without_black_king (d + 1) board alpha beta side hwf hK hk]
      refine ⟨⟨fun _ => Or.inr (Or.inl hk), fun _ => hnone⟩, fun m hm => ?_⟩
      rw [hnone] at hm
      cases hm
  · have hnone : (minimax (d + 1) board alpha beta side).2 = none := by
      rw [minimax_without_white_king (d + 1) board alpha beta side hwf hK]
    refine ⟨⟨fun _ => Or.inl hK, fun _ => hnone⟩, fun m hm => ?_⟩
    rw [hnone] at hm
    cases hm

/-- C13 on the initial position at depth 2 with black to move. -/
theorem minimax_move_iff_witness :
    1 ≤ 2 ∧ WellFormed initialBoard ∧
      (((minimax 2 initialBoard ⊥ ⊤ false).2 = none ↔
          (¬ HasCell initialBoard Cell.K ∨ ¬ HasCell initialBoard Cell.k ∨
            generateMoves initialBoard false = [])) ∧
        ∀ m, (minimax 2 initialBoard ⊥ ⊤ false).2 = some m →
          m ∈ generateMoves initialBoard false ∧
            ∃ v : Int, (minimax 2 initialBoard ⊥ ⊤ false).1 = fin v) :=
  ⟨by decide, by decide, minimax_move_iff 2 initialBoard ⊥ ⊤ false (by decide) (by decide)⟩

/-- C18: on a 6x5 board, for every depth, either side and every window with
`alpha < beta`, the returned score `v` and the exhaustive score `t` satisfy: `v = t` when
`alpha < v < beta`, `t ≤ v` when `v ≤ alpha`, and `v ≤ t` when `beta ≤ v`. -/
theorem minimax_fail_soft_bound (n : Nat) (board : Board) (alpha beta : Score) (side : Bool)
    (_hwf : WellFormed board) (hab : alpha < beta) :
    (alpha < (minimax n board alpha beta side).1 → (minimax n board alpha beta side).1 < beta →
        (minimax n board alpha beta side).1 = exhaustive n board side) ∧
      ((minimax n board alpha beta side).1 ≤ alpha →
        exhaustive n board side ≤ (minimax n board alpha beta side).1) ∧
      (beta ≤ (minimax n board alpha beta side).1 →
        (minimax n board alpha beta side).1 ≤ exhaustive n board side) :=
  minimax_failSoft n board alpha beta side hab

/-- C18 on the initial position at depth 2 with black to move, for the window from -1 to
1. -/
theorem minimax_fail_soft_bound_witness :
    WellFormed initialBoard ∧ fin (-1) < fin 1 ∧
      ((fin (-1) < (minimax 2 initialBoard (fin (-1)) (fin 1) false).1 →
          (minimax 2 initialBoard (fin (-1)) (fin 1) false).1 < fin 1 →
          (minimax 2 initialBoard (fin (-1)) (fin 1) false).1 = exhaustive 2 initialBoard false) ∧
        ((minimax 2 initialBoard (fin (-1)) (fin 1) false).1 ≤ fin (-1) →
          exhaustive 2 initialBoard false ≤
            (minimax 2 initialBoard (fin (-1)) (fin 1) false).1) ∧
        (fin 1 ≤ (minimax 2 initialBoard (fin (-1)) (fin 1) false).1 →
          (minimax 2 initialBoard (fin (-1)) (fin 1) false).1 ≤
            exhaustive 2 initialBoard false)) :=
  ⟨by decide, by decide,
    minimax_fail_soft_bound 2 initialBoard (fin (-1)) (fin 1) false (by decide) (by decide)⟩

/-! ## The initial position -/

/-- C16: the initial board has the back ranks rook, knight, king, knight, rook, pawns on
all squares of rows 1 and 4 and empty rows 2 and 3; for white the generator yields the
move from (4, 0) to (3, 0) and no move whose destination is in row 5. -/
theorem initialBoard_white_moves :
    (initialBoard[0]? = some [Cell.r, Cell.n, Cell.k, Cell.n, Cell.r] ∧
      initialBoard[5]? = some [Cell.R, Cell.N, Cell.K, Cell.N, Cell.R] ∧
      ∀ c ∈ ([0, 1, 2, 3, 4] : List Int),
        cellAt initialBoard 1 c = Cell.p ∧ cellAt initialBoard 2 c = Cell.dot ∧
          cellAt initialBoard 3 c = Cell.dot ∧ cellAt initialBoard 4 c = Cell.P) ∧
      ((4, 0), (3, 0)) ∈ generateMoves initialBoard true ∧
      ∀ m ∈ generateMoves initialBoard true, m.2.1 ≠ 5 := by
  decide

/-! ## Kings are never regenerated -/

/-- C14: on a 6x5 board a move between squares of the grid does not raise the number of
white kings nor the number of black kings; hence a board with at most one king of each
colour stays such a board after any sequence of such moves. -/
theorem applyMove_king_count (board : Board) (move : Move) (hwf : WellFormed board)
    (hfrom : InRange move.1) (hto : InRange move.2) :
    (applyMove board move).flatten.count Cell.K ≤ board.flatten.count Cell.K ∧
      (applyMove board move).flatten.count Cell.k ≤ board.flatten.count Cell.k ∧
      ∀ moves : List Move, (∀ m ∈ moves, InRange m.1 ∧ InRange m.2) →
        board.flatten.count Cell.K ≤ 1 → board.flatten.count Cell.k ≤ 1 →
        (moves.foldl applyMove board).flatten.count Cell.K ≤ 1 ∧
          (moves.foldl applyMove board).flatten.count Cell.k ≤ 1 := by
  have hK : Cell.K ≠ Cell.N ∧ Cell.K ≠ Cell.n ∧ Cell.K ≠ Cell.dot := by decide
  have hk : Cell.k ≠ Cell.N ∧ Cell.k ≠ Cell.n ∧ Cell.k ≠ Cell.dot := by decide
  refine ⟨count_applyMove_le board move Cell.K hwf hfrom hto hK,
    count_applyMove_le board move Cell.k hwf hfrom hto hk, fun moves hall h1 h2 => ?_⟩
  exact ⟨le_trans (count_foldl_applyMove_le Cell.K hK moves board hwf hall).2 h1,
    le_trans (count_foldl_applyMove_le Cell.k hk moves board hwf hall).2 h2⟩

/-- C14 at the first white pawn move of the initial position. -/
theorem applyMove_king_count_witness :
    WellFormed initialBoard ∧ InRange ((4, 0) : Square) ∧ InRange ((3, 0) : Square) ∧
      ((applyMove initialBoard ((4, 0), (3, 0))).flatten.count Cell.K ≤
          initialBoard.flatten.count Cell.K ∧
        (applyMove initialBoard ((4, 0), (3, 0))).flatten.count Cell.k ≤
          initialBoard.flatten.count Cell.k ∧
        ∀ moves : List Move, (∀ m ∈ moves, InRange m.1 ∧ InRange m.2) →
          initialBoard.flatten.count Cell.K ≤ 1 → initialBoard.flatten.count Cell.k ≤ 1 →
          (moves.foldl applyMove initialBoard).flatten.count Cell.K ≤ 1 ∧
            (moves.foldl applyMove initialBoard).flatten.count Cell.k ≤ 1) :=
  ⟨by decide, by decide, by decide,
    applyMove_king_count initialBoard ((4, 0), (3, 0)) (by decide) (by decide) (by decide)⟩

/-! ## Material never moves against the mover -/

/-- C19: on a 6x5 board a move generated for white does not lower the evaluation, and
leaves it equal exactly when the destination is empty and the move is not a promotion; a
move generated for black does not raise the evaluation, and leaves it equal exactly when
the destination is empty and the move is not a promotion. -/
theorem applyMove_material (board : Board) (m : Move) (hwf : WellFormed board) :
    (m ∈ generateMoves board true →
      evaluate board ≤ evaluate (applyMove board m) ∧
        (evaluate (applyMove board m) = evaluate board ↔
          cellAt board m.2.1 m.2.2 = Cell.dot ∧
            ¬ (cellAt board m.1.1 m.1.2 = Cell.P ∧ m.2.1 = 0))) ∧
    (m ∈ generateMoves board false →
      evaluate (applyMove board m) ≤ evaluate board ∧
        (evaluate (applyMove board m) = evaluate board ↔
          cellAt board m.2.1 m.2.2 = Cell.dot ∧
            ¬ (cellAt board m.1.1 m.1.2 = Cell.p ∧ m.2.1 = 5))) := by
  constructor
  · intro hm
    obtain ⟨-, hto, hne, hs, ht, hev⟩ := generated_move_facts board true m hwf hm
    obtain ⟨hv, hv0⟩ := value_not_white _ ht
    rw [hev, cellAt_applyMove_to board m hwf hto hne, ← hv0]
    by_cases hp : cellAt board m.1.1 m.1.2 = Cell.P ∧ m.2.1 = 0
    · have e1 : materialValue (cellAt board m.1.1 m.1.2) = 1 := by rw [hp.1]; rfl
      have e2 : materialValue Cell.N = 3 := rfl
      rw [if_pos hp, e1, e2]
      generalize materialValue (cellAt board m.2.1 m.2.2) = vt at hv ⊢
      generalize evaluate board = ev
      refine ⟨by omega, ⟨fun h => by omega, fun h => absurd hp h.2⟩⟩
    · have hp2 : ¬ (cellAt board m.1.1 m.1.2 = Cell.p ∧ m.2.1 = 5) := fun h =>
        white_not_black_pawn _ hs h.1
      rw [if_neg hp, if_neg hp2]
      generalize materialValue (cellAt board m.2.1 m.2.2) = vt at hv ⊢
      generalize materialValue (cellAt board m.1.1 m.1.2) = vp
      generalize evaluate board = ev
      refine ⟨by omega, ⟨fun h => ⟨by omega, hp⟩, fun h => by omega⟩⟩
  · intro hm
    obtain ⟨-, hto, hne, hs, ht, hev⟩ := generated_move_facts board false m hwf hm
    obtain ⟨hv, hv0⟩ := value_not_black _ ht
    rw [hev, cellAt_applyMove_to board m hwf hto hne, ← hv0]
    have hp1 : ¬ (cellAt board m.1.1 m.1.2 = Cell.P ∧ m.2.1 = 0) := fun h =>
      black_not_white_pawn _ hs h.1
    rw [if_neg hp1]
    by_cases hp : cellAt board m.1.1 m.1.2 = Cell.p ∧ m.2.1 = 5
    · have e1 : materialValue (cellAt board m.1.1 m.1.2) = -1 := by rw [hp.1]; rfl
      have e2 : materialValue Cell.n = -3 := rfl
      rw [if_pos hp, e1, e2]
      generalize materialValue (cellAt board m.2.1 m.2.2) = vt at hv ⊢
      generalize evaluate board = ev
      refine ⟨by omega, ⟨fun h => by omega, fun h => absurd hp h.2⟩⟩
    · rw [if_neg hp]
      generalize materialValue (cellAt board m.2.1 m.2.2) = vt at hv ⊢
      generalize materialValue (cellAt board m.1.1 m.1.2) = vp
      generalize evaluate board = ev
      refine ⟨by omega, ⟨fun h => ⟨by omega, hp⟩, fun h => by omega⟩⟩

/-- C19 on the initial position. -/
theorem applyMove_material_witness :
    WellFormed initialBoard ∧
      ((((4, 0), (3, 0)) ∈ generateMoves initialBoard true →
        evaluate initialBoard ≤ evaluate (applyMove initialBoard ((4, 0), (3, 0))) ∧
          (evaluate (applyMove initialBoard ((4, 0), (3, 0))) = evaluate initialBoard ↔
            cellAt initialBoard 3 0 = Cell.dot ∧
              ¬ (cellAt initialBoard 4 0 = Cell.P ∧ (3 : Int) = 0))) ∧
      (((4, 0), (3, 0)) ∈ generateMoves initialBoard false →
        evaluate (applyMove initialBoard ((4, 0), (3, 0))) ≤ evaluate initialBoard ∧
          (evaluate (applyMove initialBoard ((4, 0), (3, 0))) = evaluate initialBoard ↔
            cellAt initialBoard 3 0 = Cell.dot ∧
              ¬ (cellAt initialBoard 4 0 = Cell.p ∧ (3 : Int) = 5)))) :=
  ⟨by decide, applyMove_material initialBoard ((4, 0), (3, 0)) (by decide)⟩

/-! ## Generation order -/

theorem rowMajorSquares_eq :
    rowMajorSquares =
      [(0, 0), (0, 1), (0, 2), (0, 3), (0, 4), (1, 0), (1, 1), (1, 2), (1, 3), (1, 4),
        (2, 0), (2, 1), (2, 2), (2, 3), (2, 4), (3, 0), (3, 1), (3, 2), (3, 3), (3, 4),
        (4, 0), (4, 1), (4, 2), (4, 3), (4, 4), (5, 0), (5, 1), (5, 2), (5, 3), (5, 4)] := by
  decide

theorem generateMoves_square (board : Board) (side : Bool) (r c : Int) :
    (if cellAt board r c = Cell.dot then []
      else
        (if side && decide (cellAt board r c = toUpperCase (cellAt board r c)) then
            pieceMoves board r c (cellAt board r c) true
          else []) ++
        (if !side && decide (cellAt board r c = toLowerCase (cellAt board r c)) then
            pieceMoves board r c (cellAt board r c) false
          else [])) = movesFrom board side (r, c) := by
  unfold movesFrom
  cases side <;> cases cellAt board r c <;> simp [toUpperCase, toLowerCase, sideOf]

/-- C15: the generated list is the concatenation, over the squares in row-major order, of
the moves of the piece on the square (in the order in which `pieceMoves` yields them) when
that piece belongs to the side to move; hence the row-major indices `5 * row + column` of
the source squares never decrease along the list. -/
theorem generateMoves_order (board : Board) (side : Bool) (_hwf : WellFormed board) :
    generateMoves board side = rowMajorSquares.flatMap (movesFrom board side) ∧
      List.Pairwise (fun m1 m2 : Move => 5 * m1.1.1 + m1.1.2 ≤ 5 * m2.1.1 + m2.1.2)
        (generateMoves board side) := by
  have heq : generateMoves board side = rowMajorSquares.flatMap (movesFrom board side) := by
    unfold generateMoves
    simp only [generateMoves_square, rowMajorSquares_eq, List.flatMap_cons, List.flatMap_nil,
      List.append_nil, List.append_assoc]
  refine ⟨heq, ?_⟩
  rw [heq, List.pairwise_flatMap]
  have hsrc : ∀ sq : Square, ∀ m ∈ movesFrom board side sq, m.1 = sq := by
    intro sq m hm
    unfold movesFrom at hm
    split_ifs at hm
    · exact (pieceMoves_sound board _ _ _ side m hm).1
    · simp at hm
  constructor
  · intro sq _
    apply List.pairwise_of_forall_mem_list
    intro a ha b hb
    rw [hsrc sq a ha, hsrc sq b hb]
  · have hsorted : List.Pairwise (fun a b : Square => 5 * a.1 + a.2 ≤ 5 * b.1 + b.2)
        rowMajorSquares := by
      rw [rowMajorSquares_eq]
      decide
    apply hsorted.imp
    intro a b hab x hx y hy
    rw [hsrc a x hx, hsrc b y hy]
    exact hab

/-- C15 on the initial position with white to move. -/
theorem generateMoves_order_witness :
    WellFormed initialBoard ∧
      (generateMoves initialBoard true = rowMajorSquares.flatMap (movesFrom initialBoard true) ∧
        List.Pairwise (fun m1 m2 : Move => 5 * m1.1.1 + m1.1.2 ≤ 5 * m2.1.1 + m2.1.2)
          (generateMoves initialBoard true)) :=
  ⟨by decide, generateMoves_order initialBoard true (by decide)⟩

/-! ## Bounds before indexing -/

/-- C17: on a 6x5 board a read succeeds exactly on the squares of the grid, the generator
with failing reads returns the list of `generateMoves` (so none of its reads is outside
the grid and the out-of-range branch of the total lookup is never taken), and both squares
of every returned move are squares of the grid. -/
theorem generateMoves_reads_in_bounds (board : Board) (side : Bool) (hwf : WellFormed board) :
    (∀ r c : Int, readCell board r c ≠ none ↔ InRange (r, c)) ∧
      generateMovesChecked board side = some (generateMoves board side) ∧
      ∀ m ∈ generateMoves board side, InRange m.1 ∧ InRange m.2 :=
  ⟨fun r c => readCell_ne_none_iff board r c hwf, generateMovesChecked_eq board side hwf,
    fun m hm => generateMoves_inRange board side m hm⟩

/-- C17 on the initial position with white to move. -/
theorem generateMoves_reads_in_bounds_witness :
    WellFormed initialBoard ∧
      ((∀ r c : Int, readCell initialBoard r c ≠ none ↔ InRange (r, c)) ∧
        generateMovesChecked initialBoard true = some (generateMoves initialBoard true) ∧
        ∀ m ∈ generateMoves initialBoard true, InRange m.1 ∧ InRange m.2) :=
  ⟨by decide, generateMoves_reads_in_bounds initialBoard true (by decide)⟩

/-! ## A king capture is decisive -/

/-- C20: on a 6x5 board with exactly one king of each colour, at a depth `n ≥ 1` and for
the window from `-Infinity` to `Infinity`, the returned score lies between -9999 and 9999;
and when a generated move ends on the square of the enemy king, the score is 9999 for
white to move and -9999 for black to move. -/
theorem minimax_king_capture (n : Nat) (board : Board) (side : Bool) (hn : 1 ≤ n)
    (hwf : WellFormed board) (hK : board.flatten.count Cell.K = 1)
    (hk : board.flatten.count Cell.k = 1) :
    (fin (-9999) ≤ (minimax n board ⊥ ⊤ side).1 ∧ (minimax n board ⊥ ⊤ side).1 ≤ fin 9999) ∧
      ((∃ m ∈ generateMoves board side,
          cellAt board m.2.1 m.2.2 = if side then Cell.k else Cell.K) →
        (minimax n board ⊥ ⊤ side).1 = if side then fin 9999 else fin (-9999)) := by
  have heq : (minimax n board ⊥ ⊤ side).1 = exhaustive n board side :=
    failSoft_full (minimax_failSoft n board ⊥ ⊤ side bot_lt_top)
  have hb := exhaustive_bounds n board side hwf (le_of_eq hK) (le_of_eq hk)
  rw [heq]
  refine ⟨hb, ?_⟩
  rintro ⟨m, hm, hking⟩
  obtain ⟨d, rfl⟩ : ∃ d, n = d + 1 := ⟨n - 1, by omega⟩
  have h1 : board.flatten.contains Cell.K = true :=
    contains_of_count_pos _ _ (by rw [hK]; exact Nat.one_pos)
  have h2 : board.flatten.contains Cell.k = true :=
    contains_of_count_pos _ _ (by rw [hk]; exact Nat.one_pos)
  have h3 : ¬ (generateMoves board side).length = 0 := by
    intro h
    rw [List.length_eq_zero.1 h] at hm
    simp at hm
  have hchild := fun next => exhaustive_after_capture d board side next m hwf hK hk hm hking
  have hunfold := exhaustive_succ d board side
  rw [h1, h2] at hunfold
  simp only [Bool.not_true, Bool.false_eq_true, if_false, if_neg h3] at hunfold
  cases side with
  | true =>
    simp only [if_true] at hunfold hchild ⊢
    apply le_antisymm hb.2
    rw [hunfold, ← hchild false]
    exact mem_le_foldl_max (fun m => exhaustive d (applyMove board m) false) _ ⊥ m hm
  | false =>
    simp only [Bool.false_eq_true, if_false] at hunfold hchild ⊢
    apply le_antisymm _ hb.1
    rw [hunfold, ← hchild true]
    exact foldl_min_le_mem (fun m => exhaustive d (applyMove board m) true) _ ⊤ m hm

/-- C20 at a king capture: on `kingCaptureBoard`, at depth 2 with white to move, the rook
move from (5, 0) to (0, 0) is generated and ends on the black king, so the capture clause
applies and the score is 9999. -/
theorem minimax_king_capture_witness :
    1 ≤ 2 ∧ WellFormed kingCaptureBoard ∧ kingCaptureBoard.flatten.count Cell.K = 1 ∧
      kingCaptureBoard.flatten.count Cell.k = 1 ∧
      ((fin (-9999) ≤ (minimax 2 kingCaptureBoard ⊥ ⊤ true).1 ∧
          (minimax 2 kingCaptureBoard ⊥ ⊤ true).1 ≤ fin 9999) ∧
        ((∃ m ∈ generateMoves kingCaptureBoard true,
            cellAt kingCaptureBoard m.2.1 m.2.2 = if true then Cell.k else Cell.K) →
          (minimax 2 kingCaptureBoard ⊥ ⊤ true).1 = if true then fin 9999 else fin (-9999))) ∧
      (((5, 0), (0, 0)) ∈ generateMoves kingCaptureBoard true ∧
        cellAt kingCaptureBoard 0 0 = Cell.k) ∧
      (minimax 2 kingCaptureBoard ⊥ ⊤ true).1 = fin 9999 :=
  ⟨by decide, by decide, by decide, by decide,
    minimax_king_capture 2 kingCaptureBoard true (by decide) (by decide) (by decide) (by decide),
    ⟨by decide, by decide⟩,
    (minimax_king_capture 2 kingCaptureBoard true (by decide) (by decide) (by decide)
      (by decide)).2 ⟨((5, 0), (0, 0)), by decide, by decide⟩⟩

end Rollerball
